import Mathlib

/-
Verification of the task-graph optimization engine described by the
repository (notebook src/3-graph-optimization.ipynb).

The notebook composes four rewrite passes over dask task graphs
(cull, inline, inline_functions, fuse) followed by a scheduler get,
and poses a common-subexpression-elimination exercise whose two
solutions (optimize and its alternate) are given in full in the
notebook.  The four passes and the executor are library code that is
not part of the repository, so they are modelled here from the
specification; the two optimize functions are embedded directly from
the notebook cells.

Shallow embedding:
  - TaskSpec is the tagged variant Literal / Ref / Apply of the spec
    (section 3); a Graph is an insertion-ordered association list from
    keys to task specs, mirroring a Python dict.
  - evalT / evalArgs is a fuel-indexed evaluator; EvalsTo g k v means
    evaluation of key k in graph g terminates with value v at some
    fuel.  Fuel is consumed at every node, so success is monotone in
    fuel and the evaluator is deterministic up to fuel.
  - the raw-dict level used by the notebook exercise (where task
    bodies are compared for equality and a key name may stand for a
    task) is modelled separately with an opaque value type.
-/

namespace DaskOpt

/-- TaskSpec of the spec, section 3: a task is an immediate value, a
reference to another key, or a function applied to nested arguments. -/
inductive TaskSpec (F V K : Type) : Type
  | lit (v : V)
  | ref (k : K)
  | app (fn : F) (args : List (TaskSpec F V K))

section Core

variable {F V K : Type} [DecidableEq F] [DecidableEq V] [DecidableEq K]

mutual
def eqbT : TaskSpec F V K → TaskSpec F V K → Bool
  | .lit v, .lit v' => v = v'
  | .ref k, .ref k' => k = k'
  | .app fn args, .app fn' args' => fn = fn' && eqbL args args'
  | _, _ => false
def eqbL : List (TaskSpec F V K) → List (TaskSpec F V K) → Bool
  | [], [] => true
  | t :: ts, t' :: ts' => eqbT t t' && eqbL ts ts'
  | _, _ => false
end

mutual
theorem eqbT_iff : ∀ t t' : TaskSpec F V K, eqbT t t' = true ↔ t = t'
  | .lit _, .lit _ => by simp [eqbT]
  | .lit _, .ref _ => by simp [eqbT]
  | .lit _, .app _ _ => by simp [eqbT]
  | .ref _, .lit _ => by simp [eqbT]
  | .ref _, .ref _ => by simp [eqbT]
  | .ref _, .app _ _ => by simp [eqbT]
  | .app _ _, .lit _ => by simp [eqbT]
  | .app _ _, .ref _ => by simp [eqbT]
  | .app _ args, .app _ args' => by simp [eqbT, eqbL_iff args args']
theorem eqbL_iff : ∀ ts ts' : List (TaskSpec F V K), eqbL ts ts' = true ↔ ts = ts'
  | [], [] => by simp [eqbL]
  | [], _ :: _ => by simp [eqbL]
  | _ :: _, [] => by simp [eqbL]
  | t :: ts, t' :: ts' => by simp [eqbL, eqbT_iff t t', eqbL_iff ts ts']
end

instance : DecidableEq (TaskSpec F V K) := fun t t' =>
  decidable_of_iff (eqbT t t' = true) (eqbT_iff t t')

end Core

/-- Graph of the spec, section 3: a mapping from keys to task specs,
kept as an insertion-ordered association list like a Python dict. -/
abbrev Graph (F V K : Type) := List (K × TaskSpec F V K)

section GraphOps

variable {F V K : Type} [DecidableEq K]

/-- Dict lookup: the task bound to a key, if any. -/
def lookupG : Graph F V K → K → Option (TaskSpec F V K)
  | [], _ => none
  | (k', t) :: g, k => if k' = k then some t else lookupG g k

/-- The keys of a graph in insertion order. -/
def keysOf (g : Graph F V K) : List K := g.map Prod.fst

/-- Python dicts have no repeated keys; association lists carry this
as an explicit invariant. -/
def NodupKeys (g : Graph F V K) : Prop := (keysOf g).Nodup

instance (g : Graph F V K) : Decidable (NodupKeys g) := by
  unfold NodupKeys
  infer_instance

mutual
/-- Every key referenced anywhere in a task spec, including nested
inside Apply arguments (spec, section 4.2). -/
def refsOf : TaskSpec F V K → List K
  | .lit _ => []
  | .ref k => [k]
  | .app _ args => refsOfL args
def refsOfL : List (TaskSpec F V K) → List K
  | [] => []
  | t :: ts => refsOf t ++ refsOfL ts
end

/-- Direct dependencies of a key: the refs of its task, none if the
key is absent. -/
def depsOf (g : Graph F V K) (k : K) : List K :=
  match lookupG g k with
  | none => []
  | some t => refsOf t

/-- Direct dependents of a key: all keys whose task references it, in
graph order (the inverse mapping of the dependency analyzer). -/
def dependentsOf (g : Graph F V K) (k : K) : List K :=
  keysOf (g.filter (fun p => decide (k ∈ refsOf p.2)))

end GraphOps

section Evaluator

variable {F V K : Type} [DecidableEq K]
variable (ef : F → List V → Option V)

mutual
/-- Fuel-indexed evaluator for a single task spec (the executor of
spec section 4.7, stripped of memoization: Literal yields its value,
Ref evaluates the referenced task, Apply evaluates its arguments and
invokes the function).  Fuel is spent at every node so that success
is monotone in fuel. -/
def evalT (g : Graph F V K) : Nat → TaskSpec F V K → Option V
  | 0, _ => none
  | _ + 1, .lit v => some v
  | f + 1, .ref k =>
    match lookupG g k with
    | none => none
    | some t => evalT g f t
  | f + 1, .app fn args =>
    match evalArgs g f args with
    | none => none
    | some vs => ef fn vs
def evalArgs (g : Graph F V K) : Nat → List (TaskSpec F V K) → Option (List V)
  | 0, _ => none
  | _ + 1, [] => some []
  | f + 1, t :: ts =>
    match evalT g f t, evalArgs g f ts with
    | some v, some vs => some (v :: vs)
    | _, _ => none
end

/-- Evaluation of key k in graph g terminates with value v: the
observable result of executing g at output key k. -/
def EvalsTo (g : Graph F V K) (k : K) (v : V) : Prop :=
  ∃ f, evalT ef g f (.ref k) = some v

end Evaluator

section Reach

variable {F V K : Type} [DecidableEq K]

/-- Transitive reachability from a set of output keys along the
dependency relation (spec, section 4.3): an output key is reachable,
and every key referenced by a reachable key's task is reachable. -/
inductive Reachable (g : Graph F V K) (outs : List K) : K → Prop
  | base {k} : k ∈ outs → Reachable g outs k
  | step {j t k} : Reachable g outs j → lookupG g j = some t →
      k ∈ refsOf t → Reachable g outs k

/-- One round of the breadth-first search: add every direct dependency
of a key already seen. -/
def stepR (g : Graph F V K) (s : List K) : List K :=
  s ++ ((s.flatMap (depsOf g)).filter (fun x => decide (x ∉ s))).dedup

/-- Iterated search rounds. -/
def iterR (g : Graph F V K) : Nat → List K → List K
  | 0, s => s
  | f + 1, s => iterR g f (stepR g s)

/-- Every key referenced anywhere in the graph. -/
def allRefs (g : Graph F V K) : List K := (g.map (fun p => refsOf p.2)).flatten

/-- A finite universe containing every key the search can ever see. -/
def reachUniv (g : Graph F V K) (outs : List K) : List K :=
  (outs ++ allRefs g).dedup

/-- The reachable key set computed by the search, with enough rounds
to saturate. -/
def reachList (g : Graph F V K) (outs : List K) : List K :=
  iterR g ((reachUniv g outs).length + 1) outs.dedup

/-- A key set closed under direct dependencies. -/
def ClosedKeys (g : Graph F V K) (s : List K) : Prop :=
  ∀ j ∈ s, ∀ x ∈ depsOf g j, x ∈ s

end Reach

section Validate

variable {F V K : Type} [DecidableEq K]

/-- A graph is acyclic when no key can reach itself by following the
references of its own task onward (spec, section 3: the reference
relation must be acyclic).  Stated over the computed reachable set so
that it is decidable. -/
def Acyclic (g : Graph F V K) : Prop :=
  ∀ p ∈ g, p.1 ∉ reachList g (refsOf p.2)

instance (g : Graph F V K) : Decidable (Acyclic g) := by
  unfold Acyclic; infer_instance

/-- A dangling reference: some task references a key absent from the
graph (spec, section 4.1). -/
def HasDangling (g : Graph F V K) : Prop :=
  ∃ p ∈ g, ∃ r ∈ refsOf p.2, r ∉ keysOf g

instance (g : Graph F V K) : Decidable (HasDangling g) := by
  unfold HasDangling; infer_instance

/-- Outcome of graph validation. -/
inductive ValidateResult : Type
  | ok
  | graphValidationError
  deriving DecidableEq

/-- Modelled from the spec: validate (section 4.1) detects dangling
references and cycles and reports GraphValidationError, else Ok.  The
library function is not part of the repository sources. -/
def validate (g : Graph F V K) : ValidateResult :=
  if HasDangling g then .graphValidationError
  else if ¬ Acyclic g then .graphValidationError
  else .ok

/-- A semantic cycle: some key reaches itself through the reference
relation starting at its own task's references. -/
def HasCycle (g : Graph F V K) : Prop :=
  ∃ k t, lookupG g k = some t ∧ Reachable g (refsOf t) k

end Validate

section Cull

variable {F V K : Type} [DecidableEq K]

/-- Restrict a graph to the entries whose key lies in R, keeping
order. -/
def keepKeys (g : Graph F V K) (R : List K) : Graph F V K :=
  g.filter (fun p => decide (p.1 ∈ R))

/-- Modelled from the spec: cull (section 4.3) performs a reachability
search from the outputs and retains exactly the reachable keys.  The
library function is not part of the repository sources.  (The spec's
second return value, the recomputed dependency mapping, is depsOf of
the result.) -/
def cull (g : Graph F V K) (outs : List K) : Graph F V K :=
  keepKeys g (reachList g outs)

end Cull

section Assoc

variable {K α : Type} [DecidableEq K]

/-- Association-list lookup for plain value maps (caches, literal
bindings). -/
def lookupA : List (K × α) → K → Option α
  | [], _ => none
  | (k', v) :: m, k => if k' = k then some v else lookupA m k

end Assoc

section Subst

variable {F V K : Type} [DecidableEq K]

mutual
/-- Replace every reference to key k by the task spec tk (the
substitution used when a task is inlined into its consumer). -/
def substRef (k : K) (tk : TaskSpec F V K) : TaskSpec F V K → TaskSpec F V K
  | .lit v => .lit v
  | .ref j => if j = k then tk else .ref j
  | .app fn args => .app fn (substRefL k tk args)
def substRefL (k : K) (tk : TaskSpec F V K) :
    List (TaskSpec F V K) → List (TaskSpec F V K)
  | [] => []
  | t :: ts => substRef k tk t :: substRefL k tk ts
end

mutual
/-- Replace every reference to a key bound in the literal map by the
corresponding literal value (constant inlining, spec section 4.4). -/
def substLits (σ : List (K × V)) : TaskSpec F V K → TaskSpec F V K
  | .lit v => .lit v
  | .ref j =>
    match lookupA σ j with
    | some v => .lit v
    | none => .ref j
  | .app fn args => .app fn (substLitsL σ args)
def substLitsL (σ : List (K × V)) :
    List (TaskSpec F V K) → List (TaskSpec F V K)
  | [] => []
  | t :: ts => substLits σ t :: substLitsL σ ts
end

end Subst

section Inline

variable {F V K : Type} [DecidableEq K]

/-- The literal-valued keys of a graph together with their values: the
default inline target set of spec section 4.4. -/
def litBindings (g : Graph F V K) : List (K × V) :=
  g.filterMap (fun p =>
    match p.2 with
    | .lit v => some (p.1, v)
    | _ => none)

/-- Modelled from the spec: inline (section 4.4) with the default key
set substitutes every literal-valued key's value into all consumers
and drops the key unless it is a requested output.  The library
function is not part of the repository sources. -/
def inline (g : Graph F V K) (outs : List K) : Graph F V K :=
  (g.filter (fun p =>
      decide (p.1 ∉ (litBindings g).map Prod.fst ∨ p.1 ∈ outs))).map
    (fun p => (p.1, substLits (litBindings g) p.2))

end Inline

section StepPass

variable {F V K : Type} [DecidableEq F] [DecidableEq K]

/-- Shared rewrite step for function inlining and fusion: drop key k
and substitute its task tk into the task of its sole dependent d. -/
def substDropStep (g : Graph F V K) (k : K) (tk : TaskSpec F V K) (d : K) :
    Graph F V K :=
  g.filterMap (fun p =>
    if p.1 = k then none
    else if p.1 = d then some (d, substRef k tk p.2)
    else some p)

/-- Whether a task is an application of an allow-listed function. -/
def isFastApp (fast : List F) : TaskSpec F V K → Bool
  | .app fn _ => decide (fn ∈ fast)
  | _ => false

/-- First inline_functions candidate: a task applying an allow-listed
function, not an output, with exactly one dependent (spec, section
4.5).  Returns the candidate key, its task and its sole dependent. -/
def findCandidateIF (g : Graph F V K) (outs : List K) (fast : List F) :
    Option (K × TaskSpec F V K × K) :=
  g.findSome? (fun p =>
    if isFastApp fast p.2 = true ∧ p.1 ∉ outs then
      match dependentsOf g p.1 with
      | [d] => if p.1 ≠ d then some (p.1, p.2, d) else none
      | _ => none
    else none)

def inlineFunctionsAux (outs : List K) (fast : List F) :
    Nat → Graph F V K → Graph F V K
  | 0, g => g
  | f + 1, g =>
    match findCandidateIF g outs fast with
    | none => g
    | some (k, tk, d) => inlineFunctionsAux outs fast f (substDropStep g k tk d)

/-- Modelled from the spec: inline_functions (section 4.5) repeatedly
inlines an allow-listed, non-output task with exactly one dependent
into that dependent until no candidate remains.  The library function
is not part of the repository sources.  (Each applied step removes one
key, so graph length bounds the iteration.) -/
def inline_functions (g : Graph F V K) (outs : List K) (fast : List F) :
    Graph F V K :=
  inlineFunctionsAux outs fast g.length g

/-- First fusion candidate: a non-kept key with exactly one dependent
whose task depends on no key other than the candidate (spec, section
4.6: a linear link of a chain). -/
def findCandidateFuse (g : Graph F V K) (keep : List K) :
    Option (K × TaskSpec F V K × K) :=
  g.findSome? (fun p =>
    if p.1 ∉ keep then
      match dependentsOf g p.1 with
      | [d] =>
        if p.1 ≠ d then
          match lookupG g d with
          | some td =>
            if (refsOf td).all (fun r => decide (r = p.1)) then
              some (p.1, p.2, d)
            else none
          | none => none
        else none
      | _ => none
    else none)

def fuseAux (keep : List K) : Nat → Graph F V K → Graph F V K
  | 0, g => g
  | f + 1, g =>
    match findCandidateFuse g keep with
    | none => g
    | some (k, tk, d) => fuseAux keep f (substDropStep g k tk d)

/-- Modelled from the spec: fuse (section 4.6) collapses maximal
linear chains by repeatedly merging a non-kept key that has exactly
one dependent, when that dependent depends on nothing else, into the
dependent; the composite stays keyed by the chain's terminal key.  The
library function is not part of the repository sources. -/
def fuse (g : Graph F V K) (keep : List K) : Graph F V K :=
  fuseAux keep g.length g

end StepPass

section MemoExec

variable {F V K : Type} [DecidableEq K]
variable (ef : F → List V → Option V)

/-- State threaded through the memoizing executor: the key-value memo
map and the log of function invocations. -/
structure ExecState (F V K : Type) : Type where
  cache : List (K × V)
  trace : List F
  deriving DecidableEq

mutual
/-- Memoizing executor of spec section 4.7: each key is computed at
most once per run; every Apply resolution appends its function symbol
to the trace. -/
def evalKM (g : Graph F V K) : Nat → ExecState F V K → K →
    Option (V × ExecState F V K)
  | 0, _, _ => none
  | f + 1, st, k =>
    match lookupA st.cache k with
    | some v => some (v, st)
    | none =>
      match lookupG g k with
      | none => none
      | some t =>
        match evalTM g f st t with
        | none => none
        | some (v, st') => some (v, ⟨st'.cache ++ [(k, v)], st'.trace⟩)
def evalTM (g : Graph F V K) : Nat → ExecState F V K → TaskSpec F V K →
    Option (V × ExecState F V K)
  | 0, _, _ => none
  | _ + 1, st, .lit v => some (v, st)
  | f + 1, st, .ref k => evalKM g f st k
  | f + 1, st, .app fn args =>
    match evalAM g f st args with
    | none => none
    | some (vs, st') =>
      match ef fn vs with
      | none => none
      | some v => some (v, ⟨st'.cache, st'.trace ++ [fn]⟩)
def evalAM (g : Graph F V K) : Nat → ExecState F V K →
    List (TaskSpec F V K) → Option (List V × ExecState F V K)
  | 0, _, _ => none
  | _ + 1, st, [] => some ([], st)
  | f + 1, st, t :: ts =>
    match evalTM g f st t with
    | none => none
    | some (v, st') =>
      match evalAM g f st' ts with
      | none => none
      | some (vs, st'') => some (v :: vs, st'')
end

def runKeysM (g : Graph F V K) (fuel : Nat) :
    ExecState F V K → List K → Option (List V × ExecState F V K)
  | st, [] => some ([], st)
  | st, k :: ks =>
    match evalKM ef g fuel st k with
    | none => none
    | some (v, st') =>
      match runKeysM g fuel st' ks with
      | none => none
      | some (vs, st'') => some (v :: vs, st'')

/-- Modelled from the spec: execute (section 4.7) validates the graph
and then evaluates the requested keys in order, memoizing each key's
result for the duration of the run. -/
def execute (g : Graph F V K) (keys : List K) (fuel : Nat) :
    Option (List V × ExecState F V K) :=
  if validate g = ValidateResult.ok then runKeysM ef g fuel ⟨[], []⟩ keys
  else none

end MemoExec

section CSE

variable {K W : Type} [DecidableEq K] [DecidableEq W]

/-- All values of a raw dict in insertion order (Python
new_dsk.values()). -/
def valuesOfA (m : List (K × W)) : List W := m.map Prod.snd

/-- The Python dict comprehension inverting new_dsk keeps, for each
value, the key of the LAST item holding it; indexing the inversion by
v therefore yields the last key bound to v. -/
def lastKeyWithVal (m : List (K × W)) (v : W) : Option K :=
  ((m.filter (fun p => decide (p.2 = v))).map Prod.fst).getLast?

/-- The first key of a dict holding a given value (Python
list(dsk.keys())[list(dsk.values()).index(v)]). -/
def firstKeyWithVal (m : List (K × W)) (v : W) : Option K :=
  (m.find? (fun p => decide (p.2 = v))).map Prod.fst

/-- Loop body of the notebook solution optimize: raw dict values are
compared for equality; a replaced task becomes the chosen key itself,
injected into the value type (a Python key used as a value). -/
def optimizeGo (inj : K → W) : List (K × W) → List (K × W) → List (K × W)
  | acc, [] => acc
  | acc, (k, v) :: rest =>
    if v ∈ valuesOfA acc then
      match lastKeyWithVal acc v with
      | some k0 => optimizeGo inj (acc ++ [(k, inj k0)]) rest
      | none => optimizeGo inj (acc ++ [(k, v)]) rest
    else optimizeGo inj (acc ++ [(k, v)]) rest

/-- The notebook solution (cell marked solution): for each item, if
the value already occurs among the accumulated values, bind the key to
the key produced by inverting the accumulator, else keep the value. -/
def optimize (inj : K → W) (dsk : List (K × W)) : List (K × W) :=
  optimizeGo inj [] dsk

/-- Loop body of the notebook alternate solution: locate the first key
of the ORIGINAL dict holding this value; if that key was already
emitted, bind to it, else keep the value. -/
def optimizeAltGo (inj : K → W) (dsk : List (K × W)) :
    List (K × W) → List (K × W) → List (K × W)
  | acc, [] => acc
  | acc, (k, v) :: rest =>
    match firstKeyWithVal dsk v with
    | some k0 =>
      if k0 ∈ acc.map Prod.fst then optimizeAltGo inj dsk (acc ++ [(k, inj k0)]) rest
      else optimizeAltGo inj dsk (acc ++ [(k, v)]) rest
    | none => optimizeAltGo inj dsk (acc ++ [(k, v)]) rest

/-- The notebook alternate solution. -/
def optimize_alt (inj : K → W) (dsk : List (K × W)) : List (K × W) :=
  optimizeAltGo inj dsk [] dsk

/-- How the spec (section 9) treats one dict item: keep it when its
key is the earliest carrier of its task body, else redirect it to that
first carrier. -/
def cseTf (inj : K → W) (dsk : List (K × W)) (p : K × W) : K × W :=
  match firstKeyWithVal dsk p.2 with
  | some k0 => if k0 = p.1 then p else (p.1, inj k0)
  | none => p

/-- Stated from the spec, for comparison (section 9): a
common-subexpression pass keeps the earliest key carrying each task
body and redirects every later duplicate to that first carrier. -/
def cse_spec (inj : K → W) (dsk : List (K × W)) : List (K × W) :=
  dsk.map (cseTf inj dsk)

end CSE

section WordCount

/-- Function symbols of the word-count example (notebook cell 1): the
builtins len, str.split, str.count and the notebook's format_str and
print_and_return. -/
inductive FN1 : Type
  | len
  | split
  | countOcc
  | fmt
  | printRet
  deriving DecidableEq

/-- Values of the word-count example, kept symbolic: the string
functions are opaque collaborators, so applications are modelled as
free constructors over the base strings. -/
inductive PV1 : Type
  | vstr (s : String)
  | vlen (a : PV1)
  | vsplit (a : PV1)
  | vcount (a b : PV1)
  | vfmt (a b c : PV1)
  deriving DecidableEq

/-- Opaque semantics of the word-count functions: each call constructs
the corresponding symbolic value; print_and_return returns its
argument (its printing shows up in the executor trace). -/
def evalFn1 : FN1 → List PV1 → Option PV1
  | .len, [a] => some (.vlen a)
  | .split, [a] => some (.vsplit a)
  | .countOcc, [a, b] => some (.vcount a b)
  | .fmt, [a, b, c] => some (.vfmt a b c)
  | .printRet, [a] => some a
  | _, _ => none

/-- The word-count task graph dsk of notebook cell 1, with the dask
tuple shorthand resolved: bare strings naming keys are Refs, other
bare values are Literals, tuples are Applies. -/
def wcG : Graph FN1 PV1 String :=
  [("words", .lit (.vstr "apple orange apple pear orange pear pear")),
   ("nwords", .app .len [.app .split [.ref "words"]]),
   ("val1", .lit (.vstr "orange")),
   ("val2", .lit (.vstr "apple")),
   ("val3", .lit (.vstr "pear")),
   ("count1", .app .countOcc [.ref "words", .ref "val1"]),
   ("count2", .app .countOcc [.ref "words", .ref "val2"]),
   ("count3", .app .countOcc [.ref "words", .ref "val3"]),
   ("format1", .app .fmt [.ref "count1", .ref "val1", .ref "nwords"]),
   ("format2", .app .fmt [.ref "count2", .ref "val2", .ref "nwords"]),
   ("format3", .app .fmt [.ref "count3", .ref "val3", .ref "nwords"]),
   ("print1", .app .printRet [.ref "format1"]),
   ("print2", .app .printRet [.ref "format2"]),
   ("print3", .app .printRet [.ref "format3"])]

/-- The requested outputs of notebook cell 3. -/
def wcOuts : List String := ["print1", "print2"]

/-- The allow-list passed to inline_functions in notebook cell 14. -/
def wcFast : List FN1 := [.len, .split]

end WordCount

section DfExample

/-- Function symbols of the exercise graph (notebook cell 22). -/
inductive FN2 : Type
  | create
  | complicated
  | summarise
  deriving DecidableEq

/-- Raw dict values as the notebook exercise sees them: Python strings
(which may name keys), numbers, and task tuples of two arguments —
every tuple in the exercise graph has exactly two arguments after the
function. -/
inductive RV : Type
  | vstr (s : String)
  | vnat (n : Nat)
  | vtup2 (f : FN2) (a b : RV)
  deriving DecidableEq

/-- Symbolic values produced by executing the exercise graph. -/
inductive PV2 : Type
  | pvStr (s : String)
  | pvNat (n : Nat)
  | pvDf (rows cols : Nat)
  | pvQuant (rows cols q : Nat)
  | pvSum (a b : PV2)
  deriving DecidableEq

/-- Opaque semantics of the exercise functions: create_dataframe
builds a frame from its two sizes, complicated_computation a quantile
frame, summarise_dataframes a sum. -/
def evalFn2 : FN2 → List PV2 → Option PV2
  | .create, [.pvNat r, .pvNat c] => some (.pvDf r c)
  | .complicated, [.pvDf r c, .pvNat q] => some (.pvQuant r c q)
  | .summarise, [a, b] => some (.pvSum a b)
  | _, _ => none

/-- Resolve the dask shorthand of a raw value against the key list of
its graph (spec, section 6): a bare string is a Ref when it names a
key, else a Literal; a tuple is an Apply with recursively resolved
arguments. -/
def parseRV (ks : List String) : RV → TaskSpec FN2 PV2 String
  | .vstr s => if s ∈ ks then .ref s else .lit (.pvStr s)
  | .vnat n => .lit (.pvNat n)
  | .vtup2 f a b => .app f [parseRV ks a, parseRV ks b]

/-- Resolve a whole raw dict into a task graph. -/
def parseGraph (dsk : List (String × RV)) : Graph FN2 PV2 String :=
  dsk.map (fun p => (p.1, parseRV (dsk.map Prod.fst) p.2))

/-- The exercise task graph dsk of notebook cell 22: df_a and df_b
share one definition, df_c and df_d consume them, result sums both. -/
def dfG : List (String × RV) :=
  [("df_a", .vtup2 .create (.vnat 10000) (.vnat 1000)),
   ("df_b", .vtup2 .create (.vnat 10000) (.vnat 1000)),
   ("df_c", .vtup2 .complicated (.vstr "df_a") (.vnat 2048)),
   ("df_d", .vtup2 .complicated (.vstr "df_b") (.vnat 2048)),
   ("result", .vtup2 .summarise (.vstr "df_c") (.vstr "df_d"))]

end DfExample

section MoreConcrete

/-- The culled-then-inlined word-count graph (notebook cells 3 and
12). -/
def wcG2 : Graph FN1 PV1 String := inline (cull wcG wcOuts) wcOuts

/-- The two-key reference cycle of spec scenario 5: a depends on b and
b depends on a. -/
def cyc2 : Graph FN1 PV1 String := [("a", .ref "b"), ("b", .ref "a")]

/-- Counterexample input for the first-carrier claim: the body of key
a (and of key z) is the string x, which is also a key of the dict. -/
def cexA : List (String × RV) :=
  [("a", .vstr "x"), ("x", .vnat 1), ("y", .vnat 1), ("z", .vstr "x")]

/-- Counterexample input on which the two notebook solutions differ:
the body of key z names the key x, which also carries a duplicated
body. -/
def cexB : List (String × RV) :=
  [("x", .vnat 1), ("y", .vnat 1), ("z", .vstr "x")]

/-- The value computed for the result key of the exercise graph. -/
def dfResultVal : PV2 :=
  .pvSum (.pvQuant 10000 1000 2048) (.pvQuant 10000 1000 2048)

/-- Task bodies equal to no key name of the dict: the condition under
which the accumulator inversion of the notebook solution is
unambiguous. -/
def NoKeyBody {K W : Type} (inj : K → W) (dsk : List (K × W)) : Prop :=
  ∀ p ∈ dsk, ∀ k ∈ dsk.map Prod.fst, p.2 ≠ inj k

instance {K W : Type} [DecidableEq W] (inj : K → W) (dsk : List (K × W)) :
    Decidable (NoKeyBody inj dsk) := by
  unfold NoKeyBody
  infer_instance

/-- The composed optimization pipeline of notebook cell 18
(optimize_and_get without the final get): cull, inline,
inline_functions, fuse. -/
def pipeline {F V K : Type} [DecidableEq F] [DecidableEq K]
    (fast : List F) (g : Graph F V K) (keys : List K) : Graph F V K :=
  fuse (inline_functions (inline (cull g keys) keys) keys fast) keys

/-- A two-task graph with one allow-listed single-dependent candidate,
used to exercise the function inliner's candidate rule. -/
def gIFw : Graph FN1 PV1 String :=
  [("a", .app .len [.lit (.vstr "s")]),
   ("b", .app .fmt [.ref "a", .ref "a", .ref "a"])]

/-- The value the word-count pipeline computes for print1. -/
def wcP1 : PV1 :=
  .vfmt
    (.vcount (.vstr "apple orange apple pear orange pear pear") (.vstr "orange"))
    (.vstr "orange")
    (.vlen (.vsplit (.vstr "apple orange apple pear orange pear pear")))

end MoreConcrete

section ChainDefs

variable {F V K : Type} [DecidableEq K]

/-- Key j's task references key x. -/
def RefsTo (g : Graph F V K) (j x : K) : Prop :=
  ∃ t, lookupG g j = some t ∧ x ∈ refsOf t

/-- One link of a linear chain (spec, section 4.6): b is the sole
dependent of a, and b depends on no key other than a. -/
def LinkCond (g : Graph F V K) (a b : K) : Prop :=
  (∀ j, RefsTo g j a → j = b) ∧ RefsTo g b a ∧ (∀ r, RefsTo g b r → r = a)

/-- LinkCond with quantifiers bounded by the graph's entries, so that
it is decidable on concrete graphs. -/
def LinkCondB (g : Graph F V K) (a b : K) : Prop :=
  (∀ p ∈ g, a ∈ refsOf p.2 → p.1 = b) ∧
  (∃ p ∈ g, p.1 = b ∧ a ∈ refsOf p.2 ∧ ∀ r ∈ refsOf p.2, r = a)

instance (g : Graph F V K) (a b : K) : Decidable (LinkCondB g a b) :=
  inferInstanceAs (Decidable ((∀ p ∈ g, a ∈ refsOf p.2 → p.1 = b) ∧
    (∃ p ∈ g, p.1 = b ∧ a ∈ refsOf p.2 ∧ ∀ r ∈ refsOf p.2, r = a)))

/-- Maximality at the chain's terminal key (spec, section 4.6): the
terminal is kept, or has no dependent, or has at least two distinct
dependents, or its sole dependent also depends on some other key — in
every case the terminal itself is never fused away. -/
def TailMaxP (g : Graph F V K) (keep : List K) (kt : K) : Prop :=
  kt ∈ keep ∨
  (∀ j, ¬RefsTo g j kt) ∨
  (∃ j1 j2, j1 ≠ j2 ∧ RefsTo g j1 kt ∧ RefsTo g j2 kt) ∨
  (∃ d0, (∀ j, RefsTo g j kt → j = d0) ∧ RefsTo g d0 kt ∧
    ∃ r, RefsTo g d0 r ∧ r ≠ kt)

/-- TailMaxP with quantifiers bounded by the graph's entries, so that
it is decidable on concrete graphs. -/
def TailMaxB (g : Graph F V K) (keep : List K) (kt : K) : Prop :=
  kt ∈ keep ∨
  (∀ p ∈ g, kt ∉ refsOf p.2) ∨
  (∃ p ∈ g, ∃ q ∈ g, p.1 ≠ q.1 ∧ kt ∈ refsOf p.2 ∧ kt ∈ refsOf q.2) ∨
  (∃ p ∈ g, kt ∈ refsOf p.2 ∧ (∀ q ∈ g, kt ∈ refsOf q.2 → q.1 = p.1) ∧
    ∃ r ∈ refsOf p.2, r ≠ kt)

instance (g : Graph F V K) (keep : List K) (kt : K) :
    Decidable (TailMaxB g keep kt) :=
  inferInstanceAs (Decidable (kt ∈ keep ∨
    (∀ p ∈ g, kt ∉ refsOf p.2) ∨
    (∃ p ∈ g, ∃ q ∈ g, p.1 ≠ q.1 ∧ kt ∈ refsOf p.2 ∧ kt ∈ refsOf q.2) ∨
    (∃ p ∈ g, kt ∈ refsOf p.2 ∧ (∀ q ∈ g, kt ∈ refsOf q.2 → q.1 = p.1) ∧
      ∃ r ∈ refsOf p.2, r ≠ kt)))

/-- Invariant maintained while fuse contracts a maximal linear chain:
c is the not-yet-merged part of the chain, still ending at the
terminal kt, still linked inside the current graph, containing every
surviving original chain key, with the terminal still maximal. -/
structure FuseInv (g : Graph F V K) (keep ks : List K) (kt : K)
    (c : List K) : Prop where
  nodup : NodupKeys g
  clastq : c.getLast? = some kt
  cnodup : c.Nodup
  csub : ∀ a ∈ c, a ∈ ks
  ckeys : ∀ a ∈ c, (lookupG g a).isSome = true
  cchain : List.Chain' (LinkCond g) c
  ksc : ∀ a ∈ ks, (lookupG g a).isSome = true → a ∈ c
  tmax : TailMaxP g keep kt

/-- The facts established about a merge candidate (k, tk, d) returned
by findCandidateFuse on a graph with distinct keys, phrased through
the RefsTo relation. -/
structure CandFacts (g : Graph F V K) (keep : List K) (k : K)
    (tk : TaskSpec F V K) (d : K) : Prop where
  hkd : k ≠ d
  hknk : k ∉ keep
  htk : lookupG g k = some tk
  honlyR : ∀ j, RefsTo g j k → j = d
  hdref : RefsTo g d k
  hdonly : ∀ r, RefsTo g d r → r = k
  honlyP : ∀ p ∈ g, k ∈ refsOf p.2 → p.1 = d

/-- A three-task linear chain used as a concrete fusion witness. -/
def gChain : Graph FN1 PV1 String :=
  [("a", .lit (.vstr "s")),
   ("b", .app .len [.ref "a"]),
   ("c", .app .fmt [.ref "b", .ref "b", .ref "b"])]

end ChainDefs

section BasicTheorems

variable {F V K : Type} [DecidableEq K]
variable (ef : F → List V → Option V)

theorem lookupG_eq_none {g : Graph F V K} {k : K} :
    lookupG g k = none ↔ k ∉ keysOf g := by
  induction g with
  | nil => simp [lookupG, keysOf]
  | cons p g ih =>
    obtain ⟨k', t⟩ := p
    by_cases h : k' = k
    · subst h
      simp [lookupG, keysOf]
    · simp only [lookupG, if_neg h, keysOf, List.map_cons, List.mem_cons]
      rw [ih]
      simp only [keysOf]
      constructor
      · intro hm hc
        rcases hc with rfl | hc
        · exact h rfl
        · exact hm hc
      · intro hc hm
        exact hc (Or.inr hm)

theorem lookupG_isSome {g : Graph F V K} {k : K} :
    (lookupG g k).isSome ↔ k ∈ keysOf g := by
  cases h : lookupG g k with
  | none => simpa [h] using lookupG_eq_none.mp h
  | some t =>
    simp only [Option.isSome_some, true_iff]
    by_contra hk
    rw [← lookupG_eq_none] at hk
    simp [h] at hk

theorem lookupG_mem {g : Graph F V K} {k : K} {t : TaskSpec F V K}
    (h : lookupG g k = some t) : (k, t) ∈ g := by
  induction g with
  | nil => simp [lookupG] at h
  | cons p g ih =>
    obtain ⟨k', t'⟩ := p
    by_cases hk : k' = k
    · subst hk
      simp only [lookupG, if_pos trivial, Option.some.injEq] at h
      exact h ▸ List.mem_cons_self _ _
    · simp only [lookupG, if_neg hk] at h
      exact List.mem_cons_of_mem _ (ih h)

theorem mem_lookupG {g : Graph F V K} {k : K} {t : TaskSpec F V K}
    (hnd : NodupKeys g) (h : (k, t) ∈ g) : lookupG g k = some t := by
  induction g with
  | nil => simp at h
  | cons p g ih =>
    obtain ⟨k', t'⟩ := p
    simp only [NodupKeys, keysOf, List.map_cons, List.nodup_cons] at hnd
    rcases List.mem_cons.mp h with h1 | h1
    · obtain ⟨hk, ht⟩ := Prod.ext_iff.mp h1
      simp only at hk ht
      subst hk
      simp [lookupG, ht]
    · have hk : k' ≠ k := by
        rintro rfl
        exact hnd.1 (by simpa [keysOf] using List.mem_map_of_mem Prod.fst h1)
      simp only [lookupG, if_neg hk]
      exact ih hnd.2 h1

theorem eval_mono (g : Graph F V K) :
    ∀ f : Nat,
      (∀ t v f', f ≤ f' → evalT ef g f t = some v → evalT ef g f' t = some v) ∧
      (∀ ts vs f', f ≤ f' → evalArgs ef g f ts = some vs →
        evalArgs ef g f' ts = some vs) := by
  intro f
  induction f with
  | zero => exact ⟨fun t v f' _ h => by simp [evalT] at h,
      fun ts vs f' _ h => by simp [evalArgs] at h⟩
  | succ f ih =>
    constructor
    · intro t v f' hle h
      obtain ⟨f'', rfl⟩ : ∃ f'', f' = f'' + 1 := ⟨f' - 1, by omega⟩
      cases t with
      | lit v0 => simpa [evalT] using h
      | ref k =>
        simp only [evalT] at h ⊢
        cases hl : lookupG g k with
        | none => simp [hl] at h
        | some t0 =>
          simp only [hl] at h ⊢
          exact ih.1 t0 v f'' (by omega) h
      | app fn args =>
        simp only [evalT] at h ⊢
        cases ha : evalArgs ef g f args with
        | none => simp [ha] at h
        | some vs =>
          simp only [ha] at h
          rw [ih.2 args vs f'' (by omega) ha]
          exact h
    · intro ts vs f' hle h
      obtain ⟨f'', rfl⟩ : ∃ f'', f' = f'' + 1 := ⟨f' - 1, by omega⟩
      cases ts with
      | nil => simpa [evalArgs] using h
      | cons t ts =>
        simp only [evalArgs] at h ⊢
        cases h1 : evalT ef g f t with
        | none => simp [h1] at h
        | some v =>
          cases h2 : evalArgs ef g f ts with
          | none => simp [h1, h2] at h
          | some vs' =>
            simp only [h1, h2] at h
            rw [ih.1 t v f'' (by omega) h1, ih.2 ts vs' f'' (by omega) h2]
            exact h

theorem evalT_mono {g : Graph F V K} {f f' : Nat} {t : TaskSpec F V K} {v : V}
    (hle : f ≤ f') (h : evalT ef g f t = some v) : evalT ef g f' t = some v :=
  (eval_mono ef g f).1 t v f' hle h

theorem evalT_det {g : Graph F V K} {f f' : Nat} {t : TaskSpec F V K} {v v' : V}
    (h : evalT ef g f t = some v) (h' : evalT ef g f' t = some v') : v = v' := by
  rcases Nat.le_total f f' with hle | hle
  · have := evalT_mono ef hle h
    rw [this] at h'; exact (Option.some.injEq .. ▸ h')
  · have := evalT_mono ef hle h'
    rw [this] at h; exact (Option.some.injEq .. ▸ h).symm

theorem evalsTo_det {g : Graph F V K} {k : K} {v v' : V}
    (h : EvalsTo ef g k v) (h' : EvalsTo ef g k v') : v = v' := by
  obtain ⟨f, hf⟩ := h
  obtain ⟨f', hf'⟩ := h'
  exact evalT_det ef hf hf'

theorem subset_stepR {g : Graph F V K} {s : List K} : s ⊆ stepR g s :=
  fun _ hx => List.mem_append_left _ hx

theorem mem_stepR_iff {g : Graph F V K} {s : List K} {x : K} :
    x ∈ stepR g s ↔ x ∈ s ∨ ∃ j ∈ s, x ∈ depsOf g j := by
  simp only [stepR, List.mem_append, List.mem_dedup, List.mem_filter,
    List.mem_flatMap, decide_eq_true_eq]
  by_cases hx : x ∈ s <;> simp [hx]

theorem stepR_eq_closed {g : Graph F V K} {s : List K}
    (h : stepR g s = s) : ClosedKeys g s := by
  intro j hj x hx
  have : x ∈ stepR g s := mem_stepR_iff.mpr (Or.inr ⟨j, hj, hx⟩)
  rwa [h] at this

theorem closed_stepR_eq {g : Graph F V K} {s : List K}
    (h : ClosedKeys g s) : stepR g s = s := by
  have : ((s.flatMap (depsOf g)).filter (fun x => decide (x ∉ s))) = [] := by
    rw [List.filter_eq_nil_iff]
    intro a ha
    simp only [decide_eq_true_eq, not_not]
    obtain ⟨j, hj, hd⟩ := List.mem_flatMap.mp ha
    exact h j hj a hd
  rw [stepR, this]
  simp

theorem nodup_stepR {g : Graph F V K} {s : List K} (h : s.Nodup) :
    (stepR g s).Nodup := by
  refine List.Nodup.append h (List.nodup_dedup _) ?_
  intro x hx hx'
  have := List.mem_filter.mp (List.mem_dedup.mp hx')
  simp only [decide_eq_true_eq] at this
  exact this.2 hx

theorem depsOf_subset_allRefs {g : Graph F V K} {j x : K}
    (hx : x ∈ depsOf g j) : x ∈ allRefs g := by
  unfold depsOf at hx
  cases hl : lookupG g j with
  | none => rw [hl] at hx; simp at hx
  | some t =>
    rw [hl] at hx
    exact List.mem_flatten.mpr ⟨refsOf t, List.mem_map_of_mem _ (lookupG_mem hl), hx⟩

theorem stepR_subset_univ {g : Graph F V K} {U s : List K}
    (hU : ∀ x ∈ allRefs g, x ∈ U) (h : s ⊆ U) : stepR g s ⊆ U := by
  intro x hx
  rcases mem_stepR_iff.mp hx with hx | ⟨j, _, hd⟩
  · exact h hx
  · exact hU x (depsOf_subset_allRefs hd)

theorem length_lt_stepR {g : Graph F V K} {s : List K}
    (h : stepR g s ≠ s) : s.length + 1 ≤ (stepR g s).length := by
  by_cases he : ((s.flatMap (depsOf g)).filter (fun x => decide (x ∉ s))).dedup = []
  · exact absurd (by rw [stepR, he]; simp) h
  · have hpos : 0 <
        ((s.flatMap (depsOf g)).filter (fun x => decide (x ∉ s))).dedup.length :=
      List.length_pos.mpr he
    rw [stepR, List.length_append]
    omega

theorem stepR_fixed_iterR {g : Graph F V K} {s : List K}
    (h : stepR g s = s) : ∀ f, iterR g f s = s := by
  intro f
  induction f with
  | zero => rfl
  | succ f ih => simp [iterR, h, ih]

theorem iterR_saturates {g : Graph F V K} (U : List K)
    (hU : ∀ x ∈ allRefs g, x ∈ U) :
    ∀ (f : Nat) (s : List K), s.Nodup → s ⊆ U → U.length < s.length + f →
      stepR g (iterR g f s) = iterR g f s := by
  intro f
  induction f with
  | zero =>
    intro s hnd hsub hlen
    exact absurd ((List.subperm_of_subset hnd hsub).length_le) (by omega)
  | succ f ih =>
    intro s hnd hsub hlen
    by_cases hfix : stepR g s = s
    · rw [iterR, hfix, stepR_fixed_iterR hfix, hfix]
    · rw [iterR]
      exact ih (stepR g s) (nodup_stepR hnd) (stepR_subset_univ hU hsub)
        (by have := length_lt_stepR hfix; omega)

theorem reachList_closed (g : Graph F V K) (outs : List K) :
    ClosedKeys g (reachList g outs) := by
  apply stepR_eq_closed
  apply iterR_saturates (reachUniv g outs)
  · intro x hx
    exact List.mem_dedup.mpr (List.mem_append_right _ hx)
  · exact List.nodup_dedup _
  · intro x hx
    exact List.mem_dedup.mpr (List.mem_append_left _ (List.mem_dedup.mp hx))
  · omega

theorem subset_iterR {g : Graph F V K} {s : List K} (f : Nat) :
    s ⊆ iterR g f s := by
  induction f generalizing s with
  | zero => exact fun x hx => hx
  | succ f ih => exact fun x hx => ih (subset_stepR hx)

theorem outs_subset_reachList (g : Graph F V K) (outs : List K) :
    outs ⊆ reachList g outs :=
  fun x hx => subset_iterR _ (List.mem_dedup.mpr hx)

theorem mem_depsOf {g : Graph F V K} {j x : K} :
    x ∈ depsOf g j ↔ ∃ t, lookupG g j = some t ∧ x ∈ refsOf t := by
  unfold depsOf
  cases hl : lookupG g j with
  | none => simp
  | some t => simp

theorem iterR_sound {g : Graph F V K} {outs : List K} :
    ∀ (f : Nat) (s : List K), (∀ x ∈ s, Reachable g outs x) →
      ∀ x ∈ iterR g f s, Reachable g outs x := by
  intro f
  induction f with
  | zero => intro s h x hx; exact h x hx
  | succ f ih =>
    intro s h x hx
    rw [iterR] at hx
    refine ih (stepR g s) ?_ x hx
    intro y hy
    rcases mem_stepR_iff.mp hy with hy | ⟨j, hj, hd⟩
    · exact h y hy
    · obtain ⟨t, hl, hr⟩ := mem_depsOf.mp hd
      exact Reachable.step (h j hj) hl hr

theorem reachList_sound {g : Graph F V K} {outs : List K} {x : K}
    (h : x ∈ reachList g outs) : Reachable g outs x :=
  iterR_sound _ _ (fun y hy => Reachable.base (List.mem_dedup.mp hy)) x h

theorem reachList_complete {g : Graph F V K} {outs : List K} {x : K}
    (h : Reachable g outs x) : x ∈ reachList g outs := by
  induction h with
  | base hk => exact outs_subset_reachList _ _ hk
  | step _ hl hr ih =>
    exact reachList_closed _ _ _ ih _ (mem_depsOf.mpr ⟨_, hl, hr⟩)

theorem lookupA_eq_none {m : List (K × α)} {k : K} :
    lookupA m k = none ↔ k ∉ m.map Prod.fst := by
  induction m with
  | nil => simp [lookupA]
  | cons p m ih =>
    obtain ⟨k', v⟩ := p
    by_cases h : k' = k
    · subst h
      simp [lookupA]
    · simp only [lookupA, if_neg h, List.map_cons, List.mem_cons]
      rw [ih]
      constructor
      · intro hm hc
        rcases hc with rfl | hc
        · exact h rfl
        · exact hm hc
      · intro hc hm
        exact hc (Or.inr hm)

theorem lookupA_mem {m : List (K × α)} {k : K} {v : α}
    (h : lookupA m k = some v) : (k, v) ∈ m := by
  induction m with
  | nil => simp [lookupA] at h
  | cons p m ih =>
    obtain ⟨k', v'⟩ := p
    by_cases hk : k' = k
    · subst hk
      simp only [lookupA, if_pos trivial, Option.some.injEq] at h
      exact h ▸ List.mem_cons_self _ _
    · simp only [lookupA, if_neg hk] at h
      exact List.mem_cons_of_mem _ (ih h)

end BasicTheorems

section FilterTheorems

variable {F V K : Type} [DecidableEq K]
variable (ef : F → List V → Option V)

theorem keysOf_keepKeys (g : Graph F V K) (R : List K) :
    keysOf (keepKeys g R) = (keysOf g).filter (fun k => decide (k ∈ R)) := by
  induction g with
  | nil => rfl
  | cons p g ih =>
    obtain ⟨k, t⟩ := p
    by_cases hp : k ∈ R <;>
      simp [keepKeys, keysOf, List.filter_cons, hp] at ih ⊢ <;> exact ih

theorem lookupG_keepKeys (g : Graph F V K) (R : List K) (k : K) :
    lookupG (keepKeys g R) k = if k ∈ R then lookupG g k else none := by
  induction g with
  | nil => by_cases hp : k ∈ R <;> simp [keepKeys, lookupG, hp]
  | cons p g ih =>
    obtain ⟨k', t⟩ := p
    by_cases hk : k' = k
    · subst hk
      by_cases hp : k' ∈ R
      · simp [keepKeys, List.filter_cons, hp, lookupG]
      · simp only [keepKeys, List.filter_cons, decide_eq_true_eq] at ih ⊢
        rw [if_neg hp]
        simpa [hp] using ih
    · by_cases hp : k' ∈ R
      · simp only [keepKeys, List.filter_cons, decide_eq_true_eq] at ih ⊢
        rw [if_pos hp]
        simp only [lookupG, if_neg hk]
        rw [ih]
      · simp only [keepKeys, List.filter_cons, decide_eq_true_eq] at ih ⊢
        rw [if_neg hp, ih]
        simp only [lookupG, if_neg hk]

theorem lookupG_mapVals (g : Graph F V K) (m : TaskSpec F V K → TaskSpec F V K)
    (k : K) :
    lookupG (g.map (fun p => (p.1, m p.2))) k = (lookupG g k).map m := by
  induction g with
  | nil => simp [lookupG]
  | cons p g ih =>
    obtain ⟨k', t⟩ := p
    by_cases hk : k' = k
    · subst hk
      simp [lookupG]
    · simp only [List.map_cons, lookupG, if_neg hk]
      exact ih

theorem eval_keep_bwd (g : Graph F V K) (R : List K) :
    ∀ f : Nat,
      (∀ t v, evalT ef (keepKeys g R) f t = some v →
        evalT ef g f t = some v) ∧
      (∀ ts vs, evalArgs ef (keepKeys g R) f ts = some vs →
        evalArgs ef g f ts = some vs) := by
  intro f
  induction f with
  | zero => exact ⟨fun t v h => by simp [evalT] at h,
      fun ts vs h => by simp [evalArgs] at h⟩
  | succ f ih =>
    constructor
    · intro t v h
      cases t with
      | lit w => simpa [evalT] using h
      | ref j =>
        simp only [evalT] at h ⊢
        rw [lookupG_keepKeys] at h
        by_cases hp : j ∈ R
        · rw [if_pos hp] at h
          cases hl : lookupG g j with
          | none => rw [hl] at h; simp at h
          | some tj =>
            rw [hl] at h
            exact ih.1 tj v h
        · rw [if_neg hp] at h; simp at h
      | app fn args =>
        simp only [evalT] at h ⊢
        cases ha : evalArgs ef (keepKeys g R) f args with
        | none => rw [ha] at h; simp at h
        | some vs =>
          rw [ha] at h
          rw [ih.2 args vs ha]
          exact h
    · intro ts vs h
      cases ts with
      | nil => simpa [evalArgs] using h
      | cons t ts =>
        simp only [evalArgs] at h ⊢
        cases h1 : evalT ef (keepKeys g R) f t with
        | none => rw [h1] at h; simp at h
        | some v =>
          cases h2 : evalArgs ef (keepKeys g R) f ts with
          | none => rw [h1, h2] at h; simp at h
          | some vs' =>
            rw [h1, h2] at h
            rw [ih.1 t v h1, ih.2 ts vs' h2]
            exact h

theorem eval_restrict_fwd (g : Graph F V K) (R : List K)
    (hR : ClosedKeys g R) :
    ∀ f : Nat,
      (∀ t v, (∀ x ∈ refsOf t, x ∈ R) → evalT ef g f t = some v →
        evalT ef (keepKeys g R) f t = some v) ∧
      (∀ ts vs, (∀ x ∈ refsOfL ts, x ∈ R) → evalArgs ef g f ts = some vs →
        evalArgs ef (keepKeys g R) f ts = some vs) := by
  intro f
  induction f with
  | zero => exact ⟨fun t v _ h => by simp [evalT] at h,
      fun ts vs _ h => by simp [evalArgs] at h⟩
  | succ f ih =>
    constructor
    · intro t v hrefs h
      cases t with
      | lit w => simpa [evalT] using h
      | ref j =>
        have hj : j ∈ R := hrefs j (by simp [refsOf])
        simp only [evalT] at h ⊢
        rw [lookupG_keepKeys, if_pos hj]
        cases hl : lookupG g j with
        | none => rw [hl] at h; simp at h
        | some tj =>
          rw [hl] at h
          refine ih.1 tj v ?_ h
          intro x hx
          exact hR j hj x (by simp [depsOf, hl, hx])
      | app fn args =>
        simp only [evalT] at h ⊢
        cases ha : evalArgs ef g f args with
        | none => rw [ha] at h; simp at h
        | some vs =>
          rw [ha] at h
          rw [ih.2 args vs (by simpa [refsOf] using hrefs) ha]
          exact h
    · intro ts vs hrefs h
      cases ts with
      | nil => simpa [evalArgs] using h
      | cons t ts =>
        simp only [evalArgs] at h ⊢
        cases h1 : evalT ef g f t with
        | none => rw [h1] at h; simp at h
        | some v =>
          cases h2 : evalArgs ef g f ts with
          | none => rw [h1, h2] at h; simp at h
          | some vs' =>
            rw [h1, h2] at h
            rw [ih.1 t v (fun x hx => hrefs x (by simp [refsOfL, hx])) h1,
              ih.2 ts vs' (fun x hx => hrefs x (by simp [refsOfL, hx])) h2]
            exact h

theorem cull_evalsTo (g : Graph F V K) (outs : List K) (k : K) (v : V)
    (hk : k ∈ reachList g outs) :
    EvalsTo ef g k v ↔ EvalsTo ef (cull g outs) k v := by
  constructor
  · rintro ⟨f, hf⟩
    refine ⟨f, ?_⟩
    exact (eval_restrict_fwd ef g (reachList g outs) (reachList_closed g outs)
      f).1 _ v (by simpa [refsOf] using hk) hf
  · rintro ⟨f, hf⟩
    exact ⟨f, (eval_keep_bwd ef g _ f).1 _ v hf⟩

theorem cull_keys_iff (g : Graph F V K) (outs : List K) (k : K) :
    k ∈ keysOf (cull g outs) ↔ k ∈ keysOf g ∧ Reachable g outs k := by
  unfold cull
  rw [keysOf_keepKeys, List.mem_filter]
  simp only [decide_eq_true_eq]
  exact ⟨fun ⟨h1, h2⟩ => ⟨h1, reachList_sound h2⟩,
    fun ⟨h1, h2⟩ => ⟨h1, reachList_complete h2⟩⟩

end FilterTheorems

section AssocTheorems

variable {K α : Type} [DecidableEq K]

theorem mem_lookupA {m : List (K × α)} {k : K} {v : α}
    (hnd : (m.map Prod.fst).Nodup) (h : (k, v) ∈ m) : lookupA m k = some v := by
  induction m with
  | nil => simp at h
  | cons p m ih =>
    obtain ⟨k', v'⟩ := p
    simp only [List.map_cons, List.nodup_cons] at hnd
    rcases List.mem_cons.mp h with h1 | h1
    · obtain ⟨hk, hv⟩ := Prod.ext_iff.mp h1
      simp only at hk hv
      subst hk
      simp [lookupA, hv]
    · have hk : k' ≠ k := by
        rintro rfl
        exact hnd.1 (List.mem_map_of_mem Prod.fst h1)
      simp only [lookupA, if_neg hk]
      exact ih hnd.2 h1

end AssocTheorems

section InlineTheorems

variable {F V K : Type} [DecidableEq K]
variable (ef : F → List V → Option V)

theorem litBindings_keys_sublist (g : Graph F V K) :
    ((litBindings g).map Prod.fst).Sublist (keysOf g) := by
  induction g with
  | nil => simp [litBindings, keysOf]
  | cons p g ih =>
    obtain ⟨k, t⟩ := p
    cases t with
    | lit v =>
      simp only [litBindings, List.filterMap_cons] at ih ⊢
      simpa [keysOf] using ih.cons₂ k
    | ref j =>
      simp only [litBindings, List.filterMap_cons] at ih ⊢
      simpa [keysOf] using ih.cons k
    | app fn args =>
      simp only [litBindings, List.filterMap_cons] at ih ⊢
      simpa [keysOf] using ih.cons k

theorem litBindings_keys_nodup {g : Graph F V K} (hnd : NodupKeys g) :
    ((litBindings g).map Prod.fst).Nodup :=
  hnd.sublist (litBindings_keys_sublist g)

theorem mem_litBindings {g : Graph F V K} {k : K} {v : V} :
    (k, v) ∈ litBindings g ↔ (k, TaskSpec.lit v) ∈ g := by
  unfold litBindings
  rw [List.mem_filterMap]
  constructor
  · rintro ⟨⟨k', t⟩, hp, he⟩
    cases t with
    | lit w =>
      simp only [Option.some.injEq] at he
      obtain ⟨hk, hv⟩ := Prod.ext_iff.mp he.symm
      simp only at hk hv
      rw [hk, hv]
      exact hp
    | ref j => simp at he
    | app fn args => simp at he
  · intro hp
    exact ⟨(k, TaskSpec.lit v), hp, rfl⟩

theorem lookupA_litBindings {g : Graph F V K} {k : K} {v : V}
    (hnd : NodupKeys g) :
    lookupA (litBindings g) k = some v ↔ lookupG g k = some (.lit v) := by
  constructor
  · intro h
    exact mem_lookupG hnd (mem_litBindings.mp (lookupA_mem h))
  · intro h
    exact mem_lookupA (litBindings_keys_nodup hnd)
      (mem_litBindings.mpr (lookupG_mem h))

theorem lookupG_inlineShape (g : Graph F V K) (A B : List K)
    (σ : List (K × V)) (k : K) :
    lookupG ((g.filter (fun p => decide (p.1 ∉ A ∨ p.1 ∈ B))).map
        (fun p => (p.1, substLits σ p.2))) k =
      if k ∉ A ∨ k ∈ B then (lookupG g k).map (substLits σ) else none := by
  induction g with
  | nil => by_cases hc : k ∉ A ∨ k ∈ B <;> simp [lookupG, hc]
  | cons p g ih =>
    obtain ⟨k', t⟩ := p
    by_cases hc : k' ∉ A ∨ k' ∈ B
    · rw [List.filter_cons, if_pos (by simpa using hc)]
      by_cases hk : k' = k
      · subst hk
        simp [lookupG, hc]
      · simp only [List.map_cons, lookupG, if_neg hk]
        exact ih
    · rw [List.filter_cons, if_neg (by simpa using hc)]
      by_cases hk : k' = k
      · subst hk
        rw [ih, if_neg hc]
        simp [lookupG, hc]
      · rw [ih]
        by_cases hck : k ∉ A ∨ k ∈ B
        · rw [if_pos hck, if_pos hck]
          simp [lookupG, if_neg hk]
        · rw [if_neg hck, if_neg hck]

theorem lookupG_inline (g : Graph F V K) (outs : List K) (k : K) :
    lookupG (inline g outs) k =
      if k ∉ (litBindings g).map Prod.fst ∨ k ∈ outs then
        (lookupG g k).map (substLits (litBindings g)) else none :=
  lookupG_inlineShape g _ outs _ k

theorem keysOf_inlineShape (g : Graph F V K) (A B : List K)
    (σ : List (K × V)) :
    keysOf ((g.filter (fun p => decide (p.1 ∉ A ∨ p.1 ∈ B))).map
        (fun p => (p.1, substLits σ p.2))) =
      (keysOf g).filter (fun k => decide (k ∉ A ∨ k ∈ B)) := by
  induction g with
  | nil => rfl
  | cons p g ih =>
    obtain ⟨k', t⟩ := p
    by_cases hc : k' ∉ A ∨ k' ∈ B
    · rw [List.filter_cons, if_pos (by simpa using hc)]
      simp only [keysOf, List.map_cons, List.filter_cons] at ih ⊢
      rw [if_pos (by simpa using hc)]
      simpa using ih
    · rw [List.filter_cons, if_neg (by simpa using hc)]
      simp only [keysOf, List.map_cons, List.filter_cons] at ih ⊢
      rw [if_neg (by simpa using hc)]
      exact ih

theorem keysOf_inline (g : Graph F V K) (outs : List K) :
    keysOf (inline g outs) =
      (keysOf g).filter
        (fun k => decide (k ∉ (litBindings g).map Prod.fst ∨ k ∈ outs)) :=
  keysOf_inlineShape g _ outs _

mutual
theorem refs_substLits {σ : List (K × V)} :
    ∀ (t : TaskSpec F V K) (x : K), x ∈ refsOf (substLits σ t) →
      x ∈ refsOf t ∧ lookupA σ x = none
  | .lit v, x => by simp [substLits, refsOf]
  | .ref j, x => by
    intro hx
    cases hσ : lookupA σ j with
    | some w => rw [substLits, hσ] at hx; simp [refsOf] at hx
    | none =>
      rw [substLits, hσ] at hx
      simp only [refsOf, List.mem_singleton] at hx
      subst hx
      exact ⟨by simp [refsOf], hσ⟩
  | .app fn args, x => by
    intro hx
    rw [substLits] at hx
    simp only [refsOf] at hx ⊢
    exact refs_substLitsL args x hx
theorem refs_substLitsL {σ : List (K × V)} :
    ∀ (ts : List (TaskSpec F V K)) (x : K), x ∈ refsOfL (substLitsL σ ts) →
      x ∈ refsOfL ts ∧ lookupA σ x = none
  | [], x => by simp [substLitsL, refsOfL]
  | t :: ts, x => by
    intro hx
    rw [substLitsL] at hx
    simp only [refsOfL, List.mem_append] at hx ⊢
    rcases hx with hx | hx
    · obtain ⟨h1, h2⟩ := refs_substLits t x hx
      exact ⟨Or.inl h1, h2⟩
    · obtain ⟨h1, h2⟩ := refs_substLitsL ts x hx
      exact ⟨Or.inr h1, h2⟩
end

theorem eval_inline_fwd (g : Graph F V K) (outs : List K)
    (hnd : NodupKeys g) :
    ∀ f : Nat,
      (∀ t v, evalT ef g f t = some v →
        evalT ef (inline g outs) f (substLits (litBindings g) t) = some v) ∧
      (∀ ts vs, evalArgs ef g f ts = some vs →
        evalArgs ef (inline g outs) f (substLitsL (litBindings g) ts) = some vs) := by
  intro f
  induction f with
  | zero => exact ⟨fun t v h => by simp [evalT] at h,
      fun ts vs h => by simp [evalArgs] at h⟩
  | succ f ih =>
    constructor
    · intro t v h
      cases t with
      | lit w => rw [substLits]; simpa [evalT] using h
      | ref j =>
        simp only [evalT] at h
        cases hl : lookupG g j with
        | none => rw [hl] at h; simp at h
        | some tj =>
          rw [hl] at h
          cases hσ : lookupA (litBindings g) j with
          | some w =>
            have : lookupG g j = some (.lit w) :=
              (lookupA_litBindings hnd).mp hσ
            rw [hl] at this
            obtain rfl : tj = .lit w := by
              simpa using this
            rw [substLits, hσ]
            cases f with
            | zero => simp [evalT] at h
            | succ f0 =>
              simp only [evalT] at h ⊢
              exact h
          | none =>
            rw [substLits, hσ]
            simp only [evalT]
            rw [lookupG_inline, if_pos (Or.inl (lookupA_eq_none.mp hσ)), hl]
            exact ih.1 tj v h
      | app fn args =>
        rw [substLits]
        simp only [evalT] at h ⊢
        cases ha : evalArgs ef g f args with
        | none => rw [ha] at h; simp at h
        | some vs =>
          rw [ha] at h
          rw [ih.2 args vs ha]
          exact h
    · intro ts vs h
      cases ts with
      | nil => rw [substLitsL]; simpa [evalArgs] using h
      | cons t ts =>
        rw [substLitsL]
        simp only [evalArgs] at h ⊢
        cases h1 : evalT ef g f t with
        | none => rw [h1] at h; simp at h
        | some v =>
          cases h2 : evalArgs ef g f ts with
          | none => rw [h1, h2] at h; simp at h
          | some vs' =>
            rw [h1, h2] at h
            rw [ih.1 t v h1, ih.2 ts vs' h2]
            exact h

theorem eval_inline_bwd (g : Graph F V K) (outs : List K)
    (hnd : NodupKeys g) :
    ∀ f : Nat,
      (∀ t v, evalT ef (inline g outs) f (substLits (litBindings g) t) = some v →
        ∃ f', evalT ef g f' t = some v) ∧
      (∀ ts vs,
        evalArgs ef (inline g outs) f (substLitsL (litBindings g) ts) = some vs →
        ∃ f', evalArgs ef g f' ts = some vs) := by
  intro f
  induction f with
  | zero => exact ⟨fun t v h => by simp [evalT] at h,
      fun ts vs h => by simp [evalArgs] at h⟩
  | succ f ih =>
    constructor
    · intro t v h
      cases t with
      | lit w =>
        rw [substLits] at h
        simp only [evalT, Option.some.injEq] at h
        exact ⟨1, by simp [evalT, h]⟩
      | ref j =>
        cases hσ : lookupA (litBindings g) j with
        | some w =>
          rw [substLits, hσ] at h
          simp only [evalT, Option.some.injEq] at h
          refine ⟨2, ?_⟩
          simp only [evalT, (lookupA_litBindings hnd).mp hσ]
          simp [evalT, h]
        | none =>
          rw [substLits, hσ] at h
          simp only [evalT] at h
          rw [lookupG_inline, if_pos (Or.inl (lookupA_eq_none.mp hσ))] at h
          cases hl : lookupG g j with
          | none => rw [hl] at h; simp at h
          | some tj =>
            rw [hl] at h
            simp only [Option.map_some'] at h
            obtain ⟨f', hf'⟩ := ih.1 tj v h
            refine ⟨f' + 1, ?_⟩
            simp only [evalT, hl]
            exact hf'
      | app fn args =>
        rw [substLits] at h
        simp only [evalT] at h
        cases ha : evalArgs ef (inline g outs) f (substLitsL (litBindings g) args) with
        | none => rw [ha] at h; simp at h
        | some vs =>
          rw [ha] at h
          obtain ⟨f', hf'⟩ := ih.2 args vs ha
          refine ⟨f' + 1, ?_⟩
          simp only [evalT, hf']
          exact h
    · intro ts vs h
      cases ts with
      | nil =>
        rw [substLitsL] at h
        simp only [evalArgs, Option.some.injEq] at h
        exact ⟨1, by simp [evalArgs, h]⟩
      | cons t ts =>
        rw [substLitsL] at h
        simp only [evalArgs] at h
        cases h1 : evalT ef (inline g outs) f (substLits (litBindings g) t) with
        | none => rw [h1] at h; simp at h
        | some v =>
          cases h2 : evalArgs ef (inline g outs) f (substLitsL (litBindings g) ts) with
          | none => rw [h1, h2] at h; simp at h
          | some vs' =>
            rw [h1, h2] at h
            obtain ⟨f1, hf1⟩ := ih.1 t v h1
            obtain ⟨f2, hf2⟩ := ih.2 ts vs' h2
            refine ⟨max f1 f2 + 1, ?_⟩
            simp only [evalArgs]
            rw [evalT_mono ef (Nat.le_max_left f1 f2) hf1,
              (eval_mono ef g f2).2 ts vs' (max f1 f2) (Nat.le_max_right f1 f2) hf2]
            exact h

theorem inline_evalsTo (g : Graph F V K) (outs : List K) (k : K) (v : V)
    (hnd : NodupKeys g) (hk : k ∈ outs) :
    EvalsTo ef g k v ↔ EvalsTo ef (inline g outs) k v := by
  constructor
  · rintro ⟨f, hf⟩
    have h := (eval_inline_fwd ef g outs hnd f).1 _ v hf
    cases hσ : lookupA (litBindings g) k with
    | none => rw [substLits, hσ] at h; exact ⟨f, h⟩
    | some w =>
      rw [substLits, hσ] at h
      cases f with
      | zero => simp [evalT] at hf
      | succ f0 =>
        simp only [evalT, Option.some.injEq] at h
        refine ⟨2, ?_⟩
        simp only [evalT]
        rw [lookupG_inline, if_pos (Or.inr hk), (lookupA_litBindings hnd).mp hσ]
        simp only [Option.map_some', substLits]
        simp [evalT, h]
  · rintro ⟨f, hf⟩
    cases hσ : lookupA (litBindings g) k with
    | none =>
      have : substLits (litBindings g) (.ref k) = (.ref k : TaskSpec F V K) := by
        rw [substLits, hσ]
      rw [← this] at hf
      exact (eval_inline_bwd ef g outs hnd f).1 _ v hf
    | some w =>
      cases f with
      | zero => simp [evalT] at hf
      | succ f0 =>
        simp only [evalT] at hf
        rw [lookupG_inline, if_pos (Or.inr hk),
          (lookupA_litBindings hnd).mp hσ] at hf
        simp only [Option.map_some', substLits] at hf
        cases f0 with
        | zero => simp [evalT] at hf
        | succ f1 =>
          simp only [evalT, Option.some.injEq] at hf
          refine ⟨2, ?_⟩
          simp only [evalT, (lookupA_litBindings hnd).mp hσ]
          simp [evalT, hf]

end InlineTheorems

section SubstRefTheorems

variable {F V K : Type} [DecidableEq K]

mutual
theorem substRef_id {k : K} {tk : TaskSpec F V K} :
    ∀ t : TaskSpec F V K, k ∉ refsOf t → substRef k tk t = t
  | .lit v, _ => by rw [substRef]
  | .ref j, h => by
    rw [substRef, if_neg]
    intro hjk
    exact h (by simp [refsOf, hjk])
  | .app fn args, h => by
    rw [substRef, substRefL_id args (by simpa [refsOf] using h)]
theorem substRefL_id {k : K} {tk : TaskSpec F V K} :
    ∀ ts : List (TaskSpec F V K), k ∉ refsOfL ts → substRefL k tk ts = ts
  | [], _ => by rw [substRefL]
  | t :: ts, h => by
    simp only [refsOfL, List.mem_append] at h
    rw [substRefL, substRef_id t (fun hx => h (Or.inl hx)),
      substRefL_id ts (fun hx => h (Or.inr hx))]
end

mutual
theorem refs_substRef {k : K} {tk : TaskSpec F V K} :
    ∀ (t : TaskSpec F V K) (x : K), x ∈ refsOf (substRef k tk t) ↔
      ((x ∈ refsOf t ∧ x ≠ k) ∨ (k ∈ refsOf t ∧ x ∈ refsOf tk))
  | .lit v, x => by simp [substRef, refsOf]
  | .ref j, x => by
    by_cases hj : j = k
    · subst hj
      simp [substRef, refsOf]
    · rw [substRef, if_neg hj]
      simp only [refsOf, List.mem_singleton]
      constructor
      · rintro rfl
        exact Or.inl ⟨rfl, hj⟩
      · rintro (⟨rfl, _⟩ | ⟨hk, _⟩)
        · rfl
        · exact absurd hk.symm hj
  | .app fn args, x => by
    rw [substRef]
    simp only [refsOf]
    exact refs_substRefL args x
theorem refs_substRefL {k : K} {tk : TaskSpec F V K} :
    ∀ (ts : List (TaskSpec F V K)) (x : K), x ∈ refsOfL (substRefL k tk ts) ↔
      ((x ∈ refsOfL ts ∧ x ≠ k) ∨ (k ∈ refsOfL ts ∧ x ∈ refsOf tk))
  | [], x => by simp [substRefL, refsOfL]
  | t :: ts, x => by
    rw [substRefL]
    simp only [refsOfL, List.mem_append, refs_substRef t x, refs_substRefL ts x]
    tauto
end

theorem mem_dependentsOf {g : Graph F V K} {k j : K} :
    j ∈ dependentsOf g k ↔ ∃ t, (j, t) ∈ g ∧ k ∈ refsOf t := by
  unfold dependentsOf keysOf
  rw [List.mem_map]
  constructor
  · rintro ⟨p, hp, rfl⟩
    obtain ⟨hpg, hpr⟩ := List.mem_filter.mp hp
    exact ⟨p.2, by simpa using hpg, by simpa using hpr⟩
  · rintro ⟨t, htg, htr⟩
    exact ⟨(j, t), List.mem_filter.mpr ⟨htg, by simpa using htr⟩, rfl⟩

theorem dependents_only {g : Graph F V K} {k d : K}
    (hdep : dependentsOf g k = [d]) :
    ∀ p ∈ g, k ∈ refsOf p.2 → p.1 = d := by
  intro p hp hr
  have : p.1 ∈ dependentsOf g k := mem_dependentsOf.mpr ⟨p.2, hp, hr⟩
  rw [hdep] at this
  simpa using this

theorem lookupG_cons {g : Graph F V K} {k' j : K} {t : TaskSpec F V K} :
    lookupG ((k', t) :: g) j = if k' = j then some t else lookupG g j := rfl

theorem substDropStep_cons {g : Graph F V K} {k k' d : K}
    {tk t : TaskSpec F V K} :
    substDropStep ((k', t) :: g) k tk d =
      if k' = k then substDropStep g k tk d
      else if k' = d then (d, substRef k tk t) :: substDropStep g k tk d
      else (k', t) :: substDropStep g k tk d := by
  rw [substDropStep, List.filterMap_cons, ← substDropStep]
  by_cases h1 : k' = k
  · simp [h1]
  · by_cases h2 : k' = d
    · subst h2
      simp [h1]
    · simp [h1, h2]

theorem lookupG_substDropStep (g : Graph F V K) (k : K) (tk : TaskSpec F V K)
    (d : K) (hkd : k ≠ d) (j : K) :
    lookupG (substDropStep g k tk d) j =
      if j = k then none
      else if j = d then (lookupG g d).map (substRef k tk)
      else lookupG g j := by
  induction g with
  | nil =>
    by_cases h1 : j = k
    · simp [substDropStep, lookupG, h1]
    · by_cases h2 : j = d <;> simp [substDropStep, lookupG, h1, h2]
  | cons p g ih =>
    obtain ⟨k', t⟩ := p
    rw [substDropStep_cons]
    by_cases hpk : k' = k
    · subst hpk
      rw [if_pos rfl, ih]
      by_cases h1 : j = k'
      · rw [if_pos h1, if_pos h1]
      · rw [if_neg h1, if_neg h1]
        by_cases h2 : j = d
        · rw [if_pos h2, if_pos h2, lookupG_cons, if_neg hkd]
        · rw [if_neg h2, if_neg h2, lookupG_cons, if_neg (fun h => h1 h.symm)]
    · rw [if_neg hpk]
      by_cases hpd : k' = d
      · subst hpd
        rw [if_pos rfl, lookupG_cons]
        by_cases h3 : k' = j
        · subst h3
          rw [if_pos rfl, if_neg (fun h => hpk h), if_pos rfl, lookupG_cons,
            if_pos rfl]
          rfl
        · rw [if_neg h3, ih]
          by_cases h1 : j = k
          · rw [if_pos h1, if_pos h1]
          · rw [if_neg h1, if_neg h1]
            by_cases h2 : j = k'
            · exact absurd h2.symm h3
            · rw [if_neg h2, if_neg h2, lookupG_cons, if_neg h3]
      · rw [if_neg hpd, lookupG_cons]
        by_cases h3 : k' = j
        · subst h3
          rw [if_pos rfl, if_neg (fun h => hpk h), if_neg (fun h => hpd h),
            lookupG_cons, if_pos rfl]
        · rw [if_neg h3, ih]
          by_cases h1 : j = k
          · rw [if_pos h1, if_pos h1]
          · rw [if_neg h1, if_neg h1]
            by_cases h2 : j = d
            · rw [if_pos h2, if_pos h2, lookupG_cons, if_neg hpd]
            · rw [if_neg h2, if_neg h2, lookupG_cons, if_neg h3]

theorem keysOf_substDropStep (g : Graph F V K) (k : K) (tk : TaskSpec F V K)
    (d : K) :
    keysOf (substDropStep g k tk d) =
      (keysOf g).filter (fun j => decide (j ≠ k)) := by
  induction g with
  | nil => rfl
  | cons p g ih =>
    obtain ⟨k', t⟩ := p
    rw [substDropStep_cons]
    by_cases hpk : k' = k
    · rw [if_pos hpk, ih]
      subst hpk
      simp [keysOf, List.filter_cons]
    · rw [if_neg hpk]
      by_cases hpd : k' = d
      · subst hpd
        rw [if_pos rfl]
        simp only [keysOf, List.map_cons, List.filter_cons] at ih ⊢
        rw [if_pos (by simpa using hpk)]
        simpa [keysOf] using ih
      · rw [if_neg hpd]
        simp only [keysOf, List.map_cons, List.filter_cons] at ih ⊢
        rw [if_pos (by simpa using hpk)]
        simpa [keysOf] using ih

theorem nodup_substDropStep {g : Graph F V K} {k : K} {tk : TaskSpec F V K}
    {d : K} (hnd : NodupKeys g) : NodupKeys (substDropStep g k tk d) := by
  unfold NodupKeys
  rw [keysOf_substDropStep]
  exact hnd.filter _

theorem length_substDropStep {g : Graph F V K} {k : K} {tk : TaskSpec F V K}
    {d : K} (hk : k ∈ keysOf g) :
    (substDropStep g k tk d).length < g.length := by
  have h1 : (substDropStep g k tk d).length =
      ((keysOf g).filter (fun j => decide (j ≠ k))).length := by
    have := congrArg List.length (keysOf_substDropStep g k tk d)
    simpa [keysOf] using this
  have h2 : ((keysOf g).filter (fun j => decide (j ≠ k))).length <
      (keysOf g).length := by
    apply List.length_filter_lt_length_iff_exists.mpr
    exact ⟨k, hk, by simp⟩
  have h3 : (keysOf g).length = g.length := by simp [keysOf]
  omega

end SubstRefTheorems

section SubstStepEval

variable {F V K : Type} [DecidableEq K]
variable (ef : F → List V → Option V)
variable (g : Graph F V K) (k : K) (tk : TaskSpec F V K) (d : K)

theorem eval_substStep_fwd (hkd : k ≠ d) (htk : lookupG g k = some tk)
    (honly : ∀ p ∈ g, k ∈ refsOf p.2 → p.1 = d) :
    ∀ f : Nat,
      (∀ t v, evalT ef g f t = some v →
        evalT ef (substDropStep g k tk d) f (substRef k tk t) = some v) ∧
      (∀ ts vs, evalArgs ef g f ts = some vs →
        evalArgs ef (substDropStep g k tk d) f (substRefL k tk ts) = some vs) ∧
      (∀ v, evalT ef g f tk = some v →
        evalT ef (substDropStep g k tk d) f tk = some v) := by
  have hself : k ∉ refsOf tk := fun h => hkd (honly (k, tk) (lookupG_mem htk) h)
  intro f
  induction f with
  | zero =>
    exact ⟨fun t v h => by simp [evalT] at h,
      fun ts vs h => by simp [evalArgs] at h,
      fun v h => by simp [evalT] at h⟩
  | succ f ih =>
    obtain ⟨ihA, ihB, ihC⟩ := ih
    have hA : ∀ t v, evalT ef g (f + 1) t = some v →
        evalT ef (substDropStep g k tk d) (f + 1) (substRef k tk t) = some v := by
      intro t v h
      cases t with
      | lit w => rw [substRef]; simpa [evalT] using h
      | ref j =>
        by_cases hj : j = k
        · subst hj
          rw [substRef, if_pos rfl]
          simp only [evalT] at h
          rw [htk] at h
          exact evalT_mono ef (Nat.le_succ f) (ihC v h)
        · rw [substRef, if_neg hj]
          simp only [evalT] at h ⊢
          rw [lookupG_substDropStep g k tk d hkd, if_neg hj]
          by_cases hjd : j = d
          · subst hjd
            rw [if_pos rfl]
            cases hl : lookupG g j with
            | none => rw [hl] at h; simp at h
            | some tj =>
              rw [hl] at h
              simp only [Option.map_some']
              exact ihA tj v h
          · rw [if_neg hjd]
            cases hl : lookupG g j with
            | none => rw [hl] at h; simp at h
            | some tj =>
              rw [hl] at h
              have hfix : substRef k tk tj = tj := substRef_id tj
                (fun hmem => hjd (honly (j, tj) (lookupG_mem hl) hmem))
              have h2 := ihA tj v h
              rw [hfix] at h2
              exact h2
      | app fn args =>
        rw [substRef]
        simp only [evalT] at h ⊢
        cases ha : evalArgs ef g f args with
        | none => rw [ha] at h; simp at h
        | some vs =>
          rw [ha] at h
          rw [ihB args vs ha]
          exact h
    refine ⟨hA, ?_, ?_⟩
    · intro ts vs h
      cases ts with
      | nil => rw [substRefL]; simpa [evalArgs] using h
      | cons t ts =>
        rw [substRefL]
        simp only [evalArgs] at h ⊢
        cases h1 : evalT ef g f t with
        | none => rw [h1] at h; simp at h
        | some v =>
          cases h2 : evalArgs ef g f ts with
          | none => rw [h1, h2] at h; simp at h
          | some vs' =>
            rw [h1, h2] at h
            rw [ihA t v h1, ihB ts vs' h2]
            exact h
    · intro v h
      have h2 := hA tk v h
      rwa [substRef_id tk hself] at h2

theorem eval_substStep_bwd (hkd : k ≠ d) (htk : lookupG g k = some tk)
    (honly : ∀ p ∈ g, k ∈ refsOf p.2 → p.1 = d) :
    ∀ f : Nat,
      (∀ t v, evalT ef (substDropStep g k tk d) f (substRef k tk t) = some v →
        ∃ f', evalT ef g f' t = some v) ∧
      (∀ ts vs,
        evalArgs ef (substDropStep g k tk d) f (substRefL k tk ts) = some vs →
        ∃ f', evalArgs ef g f' ts = some vs) ∧
      (∀ v, evalT ef (substDropStep g k tk d) f tk = some v →
        ∃ f', evalT ef g f' tk = some v) := by
  have hself : k ∉ refsOf tk := fun h => hkd (honly (k, tk) (lookupG_mem htk) h)
  intro f
  induction f with
  | zero =>
    exact ⟨fun t v h => by simp [evalT] at h,
      fun ts vs h => by simp [evalArgs] at h,
      fun v h => by simp [evalT] at h⟩
  | succ f ih =>
    obtain ⟨ihA, ihB, ihC⟩ := ih
    have hRef : ∀ j v, j ≠ k →
        evalT ef (substDropStep g k tk d) (f + 1) (.ref j) = some v →
        ∃ f', evalT ef g f' (.ref j) = some v := by
      intro j v hj h
      simp only [evalT] at h
      rw [lookupG_substDropStep g k tk d hkd, if_neg hj] at h
      by_cases hjd : j = d
      · subst hjd
        rw [if_pos rfl] at h
        cases hl : lookupG g j with
        | none => rw [hl] at h; simp at h
        | some tj =>
          rw [hl] at h
          simp only [Option.map_some'] at h
          obtain ⟨f', hf'⟩ := ihA tj v h
          refine ⟨f' + 1, ?_⟩
          simp only [evalT, hl]
          exact hf'
      · rw [if_neg hjd] at h
        cases hl : lookupG g j with
        | none => rw [hl] at h; simp at h
        | some tj =>
          rw [hl] at h
          have hfix : substRef k tk tj = tj := substRef_id tj
            (fun hmem => hjd (honly (j, tj) (lookupG_mem hl) hmem))
          obtain ⟨f', hf'⟩ := ihA tj v (by rw [hfix]; exact h)
          refine ⟨f' + 1, ?_⟩
          simp only [evalT, hl]
          exact hf'
    have hC : ∀ v, evalT ef (substDropStep g k tk d) (f + 1) tk = some v →
        ∃ f', evalT ef g f' tk = some v := by
      intro v h
      match tk, hself, htk, ihB, hRef, h with
      | .lit w, _, _, _, _, h =>
        simp only [evalT, Option.some.injEq] at h
        exact ⟨1, by simp [evalT, h]⟩
      | .ref j, hself', _, _, hRef, h =>
        have hj : j ≠ k := by
          intro hjk
          exact hself' (by simp [refsOf, hjk])
        obtain ⟨f', hf'⟩ := hRef j v hj h
        exact ⟨f', hf'⟩
      | .app fn args, hself', htk', ihB, _, h =>
        simp only [evalT] at h
        cases ha : evalArgs ef (substDropStep g k (.app fn args) d) f args with
        | none => rw [ha] at h; simp at h
        | some vs =>
          rw [ha] at h
          have hargs : substRefL k (.app fn args) args = args :=
            substRefL_id args (by simpa [refsOf] using hself')
          obtain ⟨f', hf'⟩ := ihB args vs (by rw [hargs]; exact ha)
          refine ⟨f' + 1, ?_⟩
          simp only [evalT, hf']
          exact h
    have hA : ∀ t v,
        evalT ef (substDropStep g k tk d) (f + 1) (substRef k tk t) = some v →
        ∃ f', evalT ef g f' t = some v := by
      intro t v h
      cases t with
      | lit w =>
        rw [substRef] at h
        simp only [evalT, Option.some.injEq] at h
        exact ⟨1, by simp [evalT, h]⟩
      | ref j =>
        by_cases hj : j = k
        · subst hj
          rw [substRef, if_pos rfl] at h
          obtain ⟨f', hf'⟩ := hC v h
          refine ⟨f' + 1, ?_⟩
          simp only [evalT, htk]
          exact hf'
        · rw [substRef, if_neg hj] at h
          exact hRef j v hj h
      | app fn args =>
        rw [substRef] at h
        simp only [evalT] at h
        cases ha : evalArgs ef (substDropStep g k tk d) f (substRefL k tk args) with
        | none => rw [ha] at h; simp at h
        | some vs =>
          rw [ha] at h
          obtain ⟨f', hf'⟩ := ihB args vs ha
          refine ⟨f' + 1, ?_⟩
          simp only [evalT, hf']
          exact h
    refine ⟨hA, ?_, hC⟩
    intro ts vs h
    cases ts with
    | nil =>
      rw [substRefL] at h
      simp only [evalArgs, Option.some.injEq] at h
      exact ⟨1, by simp [evalArgs, h]⟩
    | cons t ts =>
      rw [substRefL] at h
      simp only [evalArgs] at h
      cases h1 : evalT ef (substDropStep g k tk d) f (substRef k tk t) with
      | none => rw [h1] at h; simp at h
      | some v =>
        cases h2 : evalArgs ef (substDropStep g k tk d) f (substRefL k tk ts) with
        | none => rw [h1, h2] at h; simp at h
        | some vs' =>
          rw [h1, h2] at h
          obtain ⟨f1, hf1⟩ := ihA t v h1
          obtain ⟨f2, hf2⟩ := ihB ts vs' h2
          refine ⟨max f1 f2 + 1, ?_⟩
          simp only [evalArgs]
          rw [evalT_mono ef (Nat.le_max_left f1 f2) hf1,
            (eval_mono ef g f2).2 ts vs' (max f1 f2) (Nat.le_max_right f1 f2) hf2]
          exact h

theorem substStep_evalsTo (hkd : k ≠ d) (htk : lookupG g k = some tk)
    (honly : ∀ p ∈ g, k ∈ refsOf p.2 → p.1 = d) (j : K) (v : V)
    (hj : j ≠ k) :
    EvalsTo ef g j v ↔ EvalsTo ef (substDropStep g k tk d) j v := by
  have hid : substRef k tk (.ref j : TaskSpec F V K) = .ref j := by
    rw [substRef, if_neg hj]
  constructor
  · rintro ⟨f, hf⟩
    have h := (eval_substStep_fwd ef g k tk d hkd htk honly f).1 _ v hf
    rw [hid] at h
    exact ⟨f, h⟩
  · rintro ⟨f, hf⟩
    rw [← hid] at hf
    exact (eval_substStep_bwd ef g k tk d hkd htk honly f).1 _ v hf

end SubstStepEval

section PassIteration

variable {F V K : Type} [DecidableEq F] [DecidableEq K]
variable (ef : F → List V → Option V)

theorem findCandidateIF_spec {g : Graph F V K} {outs : List K} {fast : List F}
    {k d : K} {tk : TaskSpec F V K}
    (h : findCandidateIF g outs fast = some (k, tk, d)) :
    (k, tk) ∈ g ∧ isFastApp fast tk = true ∧ k ∉ outs ∧
      dependentsOf g k = [d] ∧ k ≠ d := by
  unfold findCandidateIF at h
  obtain ⟨p, hp, he⟩ := List.exists_of_findSome?_eq_some h
  by_cases hc : isFastApp fast p.2 = true ∧ p.1 ∉ outs
  · rw [if_pos hc] at he
    cases hdep : dependentsOf g p.1 with
    | nil => rw [hdep] at he; simp at he
    | cons d0 rest =>
      cases rest with
      | nil =>
        rw [hdep] at he
        have he2 : (if p.1 ≠ d0 then some (p.1, p.2, d0) else none) =
            some (k, tk, d) := he
        by_cases hne : p.1 ≠ d0
        · rw [if_pos hne] at he2
          simp only [Option.some.injEq, Prod.mk.injEq] at he2
          obtain ⟨h1, h2, h3⟩ := he2
          subst h1; subst h2; subst h3
          exact ⟨by simpa using hp, hc.1, hc.2, hdep, hne⟩
        · rw [if_neg hne] at he2; simp at he2
      | cons d1 rest' => rw [hdep] at he; simp at he
  · rw [if_neg hc] at he; simp at he

theorem findCandidateFuse_spec {g : Graph F V K} {keep : List K}
    {k d : K} {tk : TaskSpec F V K}
    (h : findCandidateFuse g keep = some (k, tk, d)) :
    (k, tk) ∈ g ∧ k ∉ keep ∧ dependentsOf g k = [d] ∧ k ≠ d ∧
      ∃ td, lookupG g d = some td ∧ ∀ r ∈ refsOf td, r = k := by
  unfold findCandidateFuse at h
  obtain ⟨p, hp, he⟩ := List.exists_of_findSome?_eq_some h
  by_cases hc : p.1 ∉ keep
  · rw [if_pos hc] at he
    cases hdep : dependentsOf g p.1 with
    | nil => rw [hdep] at he; simp at he
    | cons d0 rest =>
      cases rest with
      | nil =>
        rw [hdep] at he
        have he2 : (if p.1 ≠ d0 then
            (match lookupG g d0 with
              | some td =>
                if (refsOf td).all (fun r => decide (r = p.1)) then
                  some (p.1, p.2, d0)
                else none
              | none => none)
            else none) = some (k, tk, d) := he
        by_cases hne : p.1 ≠ d0
        · rw [if_pos hne] at he2
          cases hld : lookupG g d0 with
          | none => rw [hld] at he2; simp at he2
          | some td =>
            rw [hld] at he2
            have he3 : (if (refsOf td).all (fun r => decide (r = p.1)) then
                some (p.1, p.2, d0) else none) = some (k, tk, d) := he2
            by_cases hall : (refsOf td).all (fun r => decide (r = p.1)) = true
            · rw [if_pos hall] at he3
              simp only [Option.some.injEq, Prod.mk.injEq] at he3
              obtain ⟨h1, h2, h3⟩ := he3
              subst h1; subst h2; subst h3
              refine ⟨by simpa using hp, hc, hdep, hne, td, hld, ?_⟩
              intro r hr
              simpa using List.all_eq_true.mp hall r hr
            · rw [if_neg hall] at he3; simp at he3
        · rw [if_neg hne] at he2; simp at he2
      | cons d1 rest' => rw [hdep] at he; simp at he
  · rw [if_neg hc] at he; simp at he

theorem inlineFunctionsAux_evalsTo (outs : List K) (fast : List F) :
    ∀ (f : Nat) (g : Graph F V K), NodupKeys g → ∀ j ∈ outs, ∀ v,
      (EvalsTo ef g j v ↔ EvalsTo ef (inlineFunctionsAux outs fast f g) j v) := by
  intro f
  induction f with
  | zero => intro g _ j _ v; rw [inlineFunctionsAux]
  | succ f ih =>
    intro g hnd j hj v
    rw [inlineFunctionsAux]
    cases hc : findCandidateIF g outs fast with
    | none => rfl
    | some c =>
      obtain ⟨k, tk, d⟩ := c
      obtain ⟨hmem, _, houts, hdep, hkd⟩ := findCandidateIF_spec hc
      have htk : lookupG g k = some tk := mem_lookupG hnd hmem
      have honly : ∀ p ∈ g, k ∈ refsOf p.2 → p.1 = d := dependents_only hdep
      have hjk : j ≠ k := fun h => houts (h ▸ hj)
      rw [substStep_evalsTo ef g k tk d hkd htk honly j v hjk]
      exact ih (substDropStep g k tk d) (nodup_substDropStep hnd) j hj v

theorem inline_functions_evalsTo {g : Graph F V K} {outs : List K}
    {fast : List F} (hnd : NodupKeys g) {j : K} (hj : j ∈ outs) (v : V) :
    EvalsTo ef g j v ↔ EvalsTo ef (inline_functions g outs fast) j v :=
  inlineFunctionsAux_evalsTo ef outs fast g.length g hnd j hj v

theorem fuseAux_evalsTo (keep : List K) :
    ∀ (f : Nat) (g : Graph F V K), NodupKeys g → ∀ j ∈ keep, ∀ v,
      (EvalsTo ef g j v ↔ EvalsTo ef (fuseAux keep f g) j v) := by
  intro f
  induction f with
  | zero => intro g _ j _ v; rw [fuseAux]
  | succ f ih =>
    intro g hnd j hj v
    rw [fuseAux]
    cases hc : findCandidateFuse g keep with
    | none => rfl
    | some c =>
      obtain ⟨k, tk, d⟩ := c
      obtain ⟨hmem, hkeep, hdep, hkd, _⟩ := findCandidateFuse_spec hc
      have htk : lookupG g k = some tk := mem_lookupG hnd hmem
      have honly : ∀ p ∈ g, k ∈ refsOf p.2 → p.1 = d := dependents_only hdep
      have hjk : j ≠ k := fun h => hkeep (h ▸ hj)
      rw [substStep_evalsTo ef g k tk d hkd htk honly j v hjk]
      exact ih (substDropStep g k tk d) (nodup_substDropStep hnd) j hj v

theorem fuse_evalsTo {g : Graph F V K} {keep : List K}
    (hnd : NodupKeys g) {j : K} (hj : j ∈ keep) (v : V) :
    EvalsTo ef g j v ↔ EvalsTo ef (fuse g keep) j v :=
  fuseAux_evalsTo ef keep g.length g hnd j hj v

theorem nodup_cull {g : Graph F V K} {outs : List K} (hnd : NodupKeys g) :
    NodupKeys (cull g outs) := by
  unfold NodupKeys cull
  rw [keysOf_keepKeys]
  exact hnd.filter _

theorem nodup_inline {g : Graph F V K} {outs : List K} (hnd : NodupKeys g) :
    NodupKeys (inline g outs) := by
  unfold NodupKeys
  rw [keysOf_inline]
  exact hnd.filter _

theorem nodup_inlineFunctionsAux (outs : List K) (fast : List F) :
    ∀ (f : Nat) (g : Graph F V K), NodupKeys g →
      NodupKeys (inlineFunctionsAux outs fast f g) := by
  intro f
  induction f with
  | zero => intro g hnd; rw [inlineFunctionsAux]; exact hnd
  | succ f ih =>
    intro g hnd
    rw [inlineFunctionsAux]
    cases hc : findCandidateIF g outs fast with
    | none => exact hnd
    | some c =>
      obtain ⟨k, tk, d⟩ := c
      exact ih _ (nodup_substDropStep hnd)

theorem nodup_inline_functions {g : Graph F V K} {outs : List K}
    {fast : List F} (hnd : NodupKeys g) :
    NodupKeys (inline_functions g outs fast) :=
  nodup_inlineFunctionsAux outs fast g.length g hnd

theorem nodup_fuseAux (keep : List K) :
    ∀ (f : Nat) (g : Graph F V K), NodupKeys g →
      NodupKeys (fuseAux keep f g) := by
  intro f
  induction f with
  | zero => intro g hnd; rw [fuseAux]; exact hnd
  | succ f ih =>
    intro g hnd
    rw [fuseAux]
    cases hc : findCandidateFuse g keep with
    | none => exact hnd
    | some c =>
      obtain ⟨k, tk, d⟩ := c
      exact ih _ (nodup_substDropStep hnd)

theorem nodup_fuse {g : Graph F V K} {keep : List K} (hnd : NodupKeys g) :
    NodupKeys (fuse g keep) :=
  nodup_fuseAux keep g.length g hnd

end PassIteration

section ListHelpers

theorem filter_eq_singleton {α : Type} {l : List α} {p : α → Bool} {a : α}
    (hnd : l.Nodup) (ha : a ∈ l) (hpa : p a = true)
    (huniq : ∀ b ∈ l, p b = true → b = a) : l.filter p = [a] := by
  induction l with
  | nil => simp at ha
  | cons x l ih =>
    rw [List.nodup_cons] at hnd
    rcases List.mem_cons.mp ha with rfl | ha'
    · rw [List.filter_cons_of_pos hpa]
      have : l.filter p = [] := by
        rw [List.filter_eq_nil_iff]
        intro b hb hpb
        exact hnd.1 ((huniq b (List.mem_cons_of_mem _ hb) hpb) ▸ hb)
      rw [this]
    · have hx : ¬p x = true := by
        intro hpx
        have := huniq x (List.mem_cons_self _ _) hpx
        subst this
        exact hnd.1 ha'
      rw [List.filter_cons_of_neg hx]
      exact ih hnd.2 ha' (fun b hb hpb => huniq b (List.mem_cons_of_mem _ hb) hpb)

theorem nodup_keys_entry_eq {α β : Type} {l : List (α × β)}
    (hnd : (l.map Prod.fst).Nodup)
    {a b : α × β} (ha : a ∈ l) (hb : b ∈ l) (hfst : a.1 = b.1) : a = b := by
  induction l with
  | nil => simp at ha
  | cons x l ih =>
    rw [List.map_cons, List.nodup_cons] at hnd
    rcases List.mem_cons.mp ha with rfl | ha' <;>
      rcases List.mem_cons.mp hb with h | hb'
    · exact h ▸ rfl
    · exact absurd (hfst ▸ List.mem_map_of_mem Prod.fst hb') hnd.1
    · subst h
      exact absurd (hfst ▸ List.mem_map_of_mem Prod.fst ha') hnd.1
    · exact ih hnd.2 ha' hb'

end ListHelpers

section ChainTheorems

variable {F V K : Type} [DecidableEq F] [DecidableEq K]
variable (ef : F → List V → Option V)

theorem getLast?_append_cons {α : Type} :
    ∀ (l1 : List α) (a : α) (l2 : List α),
      (l1 ++ a :: l2).getLast? = (a :: l2).getLast?
  | [], _, _ => rfl
  | [x], a, l2 => by
    rw [List.cons_append, List.nil_append, List.getLast?_cons_cons]
  | x :: y :: l1, a, l2 => by
    rw [List.cons_append, List.cons_append, List.getLast?_cons_cons,
      ← List.cons_append]
    exact getLast?_append_cons (y :: l1) a l2

theorem mem_of_getLast?_eq {α : Type} :
    ∀ {l : List α} {a : α}, l.getLast? = some a → a ∈ l
  | [], a, h => by simp at h
  | [x], a, h => by
    have hx : x = a := by simpa using h
    simp [hx]
  | x :: y :: l, a, h => by
    rw [List.getLast?_cons_cons] at h
    exact List.mem_cons_of_mem _ (mem_of_getLast?_eq h)

theorem chain'_imp_tail {α : Type} {R S : α → α → Prop} :
    ∀ (l : List α), List.Chain' R l →
      (∀ x ∈ l, ∀ y ∈ l.tail, R x y → S x y) → List.Chain' S l
  | [], _, _ => List.chain'_nil
  | [_], _, _ => List.chain'_singleton _
  | a :: b :: l, h, himp => by
    rw [List.chain'_cons] at h ⊢
    refine ⟨himp a (List.mem_cons_self _ _) b (List.mem_cons_self _ _) h.1, ?_⟩
    exact chain'_imp_tail (b :: l) h.2
      (fun x hx y hy hR =>
        himp x (List.mem_cons_of_mem _ hx) y (List.mem_cons_of_mem _ hy) hR)

theorem chain'_pred_of_mem_tail {α : Type} {R : α → α → Prop} :
    ∀ (l : List α), List.Chain' R l → ∀ a ∈ l.tail, ∃ x ∈ l, R x a
  | [], _, a, ha => absurd ha (by simp)
  | [_], _, a, ha => absurd ha (by simp)
  | x :: y :: l, h, a, ha => by
    rw [List.chain'_cons] at h
    rcases List.mem_cons.mp ha with rfl | ha'
    · exact ⟨x, List.mem_cons_self _ _, h.1⟩
    · obtain ⟨p, hp, hpa⟩ := chain'_pred_of_mem_tail (y :: l) h.2 a ha'
      exact ⟨p, List.mem_cons_of_mem _ hp, hpa⟩

theorem linkCondB_iff {g : Graph F V K} (hnd : NodupKeys g) {a b : K} :
    LinkCondB g a b ↔ LinkCond g a b := by
  constructor
  · rintro ⟨h1, p, hp, hpb, hpa, hpall⟩
    refine ⟨?_, ⟨p.2, ?_, hpa⟩, ?_⟩
    · rintro j ⟨t, hl, hx⟩
      exact h1 (j, t) (lookupG_mem hl) hx
    · rw [← hpb]
      exact mem_lookupG hnd hp
    · rintro r ⟨t, hl, hr⟩
      have hlp : lookupG g b = some p.2 := by
        rw [← hpb]
        exact mem_lookupG hnd hp
      rw [hlp] at hl
      have ht : t = p.2 := by injection hl with hh; exact hh.symm
      subst ht
      exact hpall r hr
  · rintro ⟨h1, ⟨tb, hlb, hab⟩, h3⟩
    refine ⟨?_, ⟨(b, tb), lookupG_mem hlb, rfl, hab, ?_⟩⟩
    · intro p hp hx
      exact h1 p.1 ⟨p.2, mem_lookupG hnd hp, hx⟩
    · intro r hr
      exact h3 r ⟨tb, hlb, hr⟩

theorem tailMaxB_iff {g : Graph F V K} (hnd : NodupKeys g) {keep : List K}
    {kt : K} : TailMaxB g keep kt ↔ TailMaxP g keep kt := by
  constructor
  · rintro (h | h | ⟨p, hp, q, hq, hne, hpk, hqk⟩ |
      ⟨p, hp, hpk, huniq, r, hr, hrne⟩)
    · exact Or.inl h
    · refine Or.inr (Or.inl ?_)
      rintro j ⟨t, hl, hx⟩
      exact h (j, t) (lookupG_mem hl) hx
    · exact Or.inr (Or.inr (Or.inl ⟨p.1, q.1, hne,
        ⟨p.2, mem_lookupG hnd hp, hpk⟩, ⟨q.2, mem_lookupG hnd hq, hqk⟩⟩))
    · refine Or.inr (Or.inr (Or.inr ⟨p.1, ?_,
        ⟨p.2, mem_lookupG hnd hp, hpk⟩, r,
        ⟨p.2, mem_lookupG hnd hp, hr⟩, hrne⟩))
      rintro j ⟨t, hl, hx⟩
      exact huniq (j, t) (lookupG_mem hl) hx
  · rintro (h | h | ⟨j1, j2, hne, ⟨t1, hl1, h1⟩, ⟨t2, hl2, h2⟩⟩ |
      ⟨d0, huniq, ⟨td, hld, hktd⟩, r, ⟨td', hld', hr⟩, hrne⟩)
    · exact Or.inl h
    · refine Or.inr (Or.inl ?_)
      intro p hp hx
      exact h p.1 ⟨p.2, mem_lookupG hnd hp, hx⟩
    · exact Or.inr (Or.inr (Or.inl ⟨(j1, t1), lookupG_mem hl1, (j2, t2),
        lookupG_mem hl2, hne, h1, h2⟩))
    · refine Or.inr (Or.inr (Or.inr ?_))
      have htd : td' = td := by
        rw [hld] at hld'
        injection hld' with hh
        exact hh.symm
      subst htd
      refine ⟨(d0, td'), lookupG_mem hld, hktd, ?_, r, hr, hrne⟩
      intro q hq hqk
      exact huniq q.1 ⟨q.2, mem_lookupG hnd hq, hqk⟩

theorem refsTo_substDropStep {g : Graph F V K} {k d : K}
    {tk td : TaskSpec F V K} (hkd : k ≠ d) (htk : lookupG g k = some tk)
    (hld : lookupG g d = some td) (hrefstd : ∀ r ∈ refsOf td, r = k)
    (hktd : k ∈ refsOf td) (j x : K) :
    RefsTo (substDropStep g k tk d) j x ↔
      ((j = d ∧ RefsTo g k x) ∨ (j ≠ k ∧ j ≠ d ∧ RefsTo g j x)) := by
  constructor
  · rintro ⟨t, hl, hx⟩
    rw [lookupG_substDropStep g k tk d hkd j] at hl
    by_cases hjk : j = k
    · rw [if_pos hjk] at hl
      exact absurd hl (by simp)
    · rw [if_neg hjk] at hl
      by_cases hjd : j = d
      · rw [if_pos hjd, hld, Option.map_some'] at hl
        have ht : t = substRef k tk td := by injection hl with hh; exact hh.symm
        rw [ht] at hx
        rw [refs_substRef] at hx
        rcases hx with ⟨hxtd, hxk⟩ | ⟨_, hxtk⟩
        · exact absurd (hrefstd x hxtd) hxk
        · exact Or.inl ⟨hjd, tk, htk, hxtk⟩
      · rw [if_neg hjd] at hl
        exact Or.inr ⟨hjk, hjd, t, hl, hx⟩
  · rintro (⟨hjd, t, hlt, hx⟩ | ⟨hjk, hjd, t, hl, hx⟩)
    · have ht : t = tk := by
        rw [htk] at hlt
        injection hlt with hh
        exact hh.symm
      rw [ht] at hx
      rw [hjd]
      refine ⟨substRef k tk td, ?_, ?_⟩
      · rw [lookupG_substDropStep g k tk d hkd d,
          if_neg (fun hh => hkd hh.symm), if_pos rfl, hld, Option.map_some']
      · rw [refs_substRef]
        exact Or.inr ⟨hktd, hx⟩
    · refine ⟨t, ?_, hx⟩
      rw [lookupG_substDropStep g k tk d hkd j, if_neg hjk, if_neg hjd]
      exact hl

theorem isSome_substDropStep {g : Graph F V K} {k d : K}
    {tk : TaskSpec F V K} (hkd : k ≠ d) (j : K) :
    (lookupG (substDropStep g k tk d) j).isSome = true ↔
      (j ≠ k ∧ (lookupG g j).isSome = true) := by
  rw [lookupG_substDropStep g k tk d hkd j]
  by_cases hjk : j = k
  · rw [if_pos hjk]
    simp [hjk]
  · rw [if_neg hjk]
    by_cases hjd : j = d
    · subst hjd
      rw [if_pos rfl]
      cases h : lookupG g j <;> simp [h, hjk]
    · rw [if_neg hjd]
      simp [hjk]

theorem candFacts_of_find {g : Graph F V K} {keep : List K} {k d : K}
    {tk : TaskSpec F V K} (hnd : NodupKeys g)
    (h : findCandidateFuse g keep = some (k, tk, d)) :
    CandFacts g keep k tk d := by
  obtain ⟨hmem, hknk, hdep, hkd, td, hld, hall⟩ := findCandidateFuse_spec h
  have htk : lookupG g k = some tk := mem_lookupG hnd hmem
  have honlyP : ∀ p ∈ g, k ∈ refsOf p.2 → p.1 = d := dependents_only hdep
  have hdmem : d ∈ dependentsOf g k := by
    rw [hdep]
    exact List.mem_singleton.mpr rfl
  obtain ⟨t, htg, hkt⟩ := mem_dependentsOf.mp hdmem
  have hlt : lookupG g d = some t := mem_lookupG hnd htg
  refine ⟨hkd, hknk, htk, ?_, ⟨t, hlt, hkt⟩, ?_, honlyP⟩
  · rintro j ⟨t', hl', hx'⟩
    exact honlyP (j, t') (lookupG_mem hl') hx'
  · rintro r ⟨t', hl', hr'⟩
    rw [hld] at hl'
    have ht' : t' = td := by injection hl' with hh; exact hh.symm
    subst ht'
    exact hall r hr'

theorem kt_ne_candidate {g : Graph F V K} {keep : List K} {k d kt : K}
    {tk : TaskSpec F V K} (cf : CandFacts g keep k tk d)
    (htm : TailMaxP g keep kt) : k ≠ kt := by
  rintro rfl
  rcases htm with h | h | ⟨j1, j2, hne, h1, h2⟩ | ⟨d0, huniq, hd0, r, hr, hrne⟩
  · exact cf.hknk h
  · exact h d cf.hdref
  · exact hne ((cf.honlyR j1 h1).trans (cf.honlyR j2 h2).symm)
  · have hdd0 : d = d0 := huniq d cf.hdref
    refine hrne (cf.hdonly r ?_)
    rw [hdd0]
    exact hr

theorem tailMax_step {g : Graph F V K} {keep : List K} {k d kt : K}
    {tk : TaskSpec F V K} (cf : CandFacts g keep k tk d) (hktk : kt ≠ k)
    (htm : TailMaxP g keep kt) :
    TailMaxP (substDropStep g k tk d) keep kt := by
  obtain ⟨td, hld, hktd⟩ := cf.hdref
  have hrefstd : ∀ r ∈ refsOf td, r = k := fun r hr => cf.hdonly r ⟨td, hld, hr⟩
  have hsr := refsTo_substDropStep cf.hkd cf.htk hld hrefstd hktd
  rcases htm with h | h | ⟨j1, j2, hne, h1, h2⟩ | ⟨d0, huniq, hd0, r, hr, hrne⟩
  · exact Or.inl h
  · refine Or.inr (Or.inl ?_)
    intro j hj
    rcases (hsr j kt).mp hj with ⟨_, hk⟩ | ⟨_, _, hj'⟩
    · exact h k hk
    · exact h j hj'
  · refine Or.inr (Or.inr (Or.inl ?_))
    have hd1 : j1 ≠ d := fun hh => hktk (cf.hdonly kt (hh ▸ h1))
    have hd2 : j2 ≠ d := fun hh => hktk (cf.hdonly kt (hh ▸ h2))
    by_cases hk1 : j1 = k
    · have hk2 : j2 ≠ k := fun hh => hne (hk1.trans hh.symm)
      refine ⟨d, j2, fun hh => hd2 hh.symm, ?_, ?_⟩
      · exact (hsr d kt).mpr (Or.inl ⟨rfl, hk1 ▸ h1⟩)
      · exact (hsr j2 kt).mpr (Or.inr ⟨hk2, hd2, h2⟩)
    · by_cases hk2 : j2 = k
      · refine ⟨j1, d, hd1, ?_, ?_⟩
        · exact (hsr j1 kt).mpr (Or.inr ⟨hk1, hd1, h1⟩)
        · exact (hsr d kt).mpr (Or.inl ⟨rfl, hk2 ▸ h2⟩)
      · exact ⟨j1, j2, hne, (hsr j1 kt).mpr (Or.inr ⟨hk1, hd1, h1⟩),
          (hsr j2 kt).mpr (Or.inr ⟨hk2, hd2, h2⟩)⟩
  · refine Or.inr (Or.inr (Or.inr ?_))
    by_cases hkd0 : k = d0
    · refine ⟨d, ?_, ?_, r, ?_, hrne⟩
      · intro j hj
        rcases (hsr j kt).mp hj with ⟨hjd, _⟩ | ⟨hjk, _, hj'⟩
        · exact hjd
        · exact absurd ((huniq j hj').trans hkd0.symm) hjk
      · refine (hsr d kt).mpr (Or.inl ⟨rfl, ?_⟩)
        rw [hkd0]
        exact hd0
      · refine (hsr d r).mpr (Or.inl ⟨rfl, ?_⟩)
        rw [hkd0]
        exact hr
    · have hdd0 : d ≠ d0 := fun hh => hktk (cf.hdonly kt (by rw [hh]; exact hd0))
      have hd0k : d0 ≠ k := fun hh => hkd0 hh.symm
      refine ⟨d0, ?_, ?_, r, ?_, hrne⟩
      · intro j hj
        rcases (hsr j kt).mp hj with ⟨hjd, hk⟩ | ⟨_, _, hj'⟩
        · exact absurd (huniq k hk) hkd0
        · exact huniq j hj'
      · exact (hsr d0 kt).mpr (Or.inr ⟨hd0k, fun hh => hdd0 hh.symm, hd0⟩)
      · exact (hsr d0 r).mpr (Or.inr ⟨hd0k, fun hh => hdd0 hh.symm, hr⟩)

theorem linkCond_step {g : Graph F V K} {keep : List K} {k d : K}
    {tk : TaskSpec F V K} (cf : CandFacts g keep k tk d)
    {x y : K} (hL : LinkCond g x y) (hx : x ≠ k) (hy : y ≠ k) (hyd : y ≠ d) :
    LinkCond (substDropStep g k tk d) x y := by
  obtain ⟨td, hld, hktd⟩ := cf.hdref
  have hrefstd : ∀ r ∈ refsOf td, r = k := fun r hr => cf.hdonly r ⟨td, hld, hr⟩
  have hsr := refsTo_substDropStep cf.hkd cf.htk hld hrefstd hktd
  obtain ⟨h1, h2, h3⟩ := hL
  refine ⟨?_, ?_, ?_⟩
  · intro j hj
    rcases (hsr j x).mp hj with ⟨_, hk⟩ | ⟨_, _, hj'⟩
    · exact absurd (h1 k hk).symm hy
    · exact h1 j hj'
  · exact (hsr y x).mpr (Or.inr ⟨hy, hyd, h2⟩)
  · intro r hr
    rcases (hsr y r).mp hr with ⟨hyd', _⟩ | ⟨_, _, hr'⟩
    · exact absurd hyd' hyd
    · exact h3 r hr'

theorem fuseInv_step {g : Graph F V K} {keep ks : List K} {kt : K}
    {c : List K} {k d : K} {tk : TaskSpec F V K}
    (inv : FuseInv g keep ks kt c) (cf : CandFacts g keep k tk d) :
    ∃ c', FuseInv (substDropStep g k tk d) keep ks kt c' := by
  have hnd := inv.nodup
  have hktk : kt ≠ k := fun hh => kt_ne_candidate cf inv.tmax hh.symm
  have htm' := tailMax_step cf hktk inv.tmax
  have hnd' : NodupKeys (substDropStep g k tk d) := nodup_substDropStep hnd
  have hsk : ∀ j, (lookupG (substDropStep g k tk d) j).isSome = true ↔
      (j ≠ k ∧ (lookupG g j).isSome = true) :=
    fun j => isSome_substDropStep cf.hkd j
  obtain ⟨td, hld, hktd⟩ := cf.hdref
  have hrefstd : ∀ r ∈ refsOf td, r = k := fun r hr => cf.hdonly r ⟨td, hld, hr⟩
  have hsr := refsTo_substDropStep cf.hkd cf.htk hld hrefstd hktd
  by_cases hkc : k ∈ c
  · obtain ⟨c1, c2, rfl⟩ := List.append_of_mem hkc
    have hnc := inv.cnodup
    rw [List.nodup_append] at hnc
    obtain ⟨hnc1, hnc2, hdisj⟩ := hnc
    have hk1 : k ∉ c1 := fun hh => hdisj hh (List.mem_cons_self _ _)
    cases c2 with
    | nil =>
      exfalso
      have hl : (c1 ++ [k]).getLast? = some k := by
        rw [getLast?_append_cons]
        simp
      rw [inv.clastq] at hl
      exact hktk (Option.some.inj hl)
    | cons b c2' =>
      have hk2 : k ∉ b :: c2' := (List.nodup_cons.mp hnc2).1
      have hnbc : (b :: c2').Nodup := (List.nodup_cons.mp hnc2).2
      have hbnc2 : b ∉ c2' := (List.nodup_cons.mp hnbc).1
      have hbext : b ∈ k :: b :: c2' :=
        List.mem_cons_of_mem _ (List.mem_cons_self _ _)
      have hb1 : b ∉ c1 := fun hh => hdisj hh hbext
      have hch := inv.cchain
      rw [List.chain'_append] at hch
      obtain ⟨hch1, hch2, hch12⟩ := hch
      rw [List.chain'_cons] at hch2
      obtain ⟨hLkb, hch2'⟩ := hch2
      have hdb : b = d := cf.honlyR b hLkb.2.1
      subst hdb
      refine ⟨c1 ++ b :: c2', hnd', ?_, ?_, ?_, ?_, ?_, ?_, htm'⟩
      · have h0 := inv.clastq
        rw [getLast?_append_cons, List.getLast?_cons_cons] at h0
        rw [getLast?_append_cons]
        exact h0
      · have hsub : List.Sublist (c1 ++ b :: c2') (c1 ++ k :: b :: c2') :=
          List.Sublist.append_left (List.sublist_cons_self _ _) c1
        exact inv.cnodup.sublist hsub
      · intro a ha
        refine inv.csub a ?_
        rcases List.mem_append.mp ha with h | h
        · exact List.mem_append.mpr (Or.inl h)
        · exact List.mem_append.mpr (Or.inr (List.mem_cons_of_mem _ h))
      · intro a ha
        have hak : a ≠ k := by
          rintro rfl
          rcases List.mem_append.mp ha with h | h
          · exact hk1 h
          · exact hk2 h
        refine (hsk a).mpr ⟨hak, ?_⟩
        refine inv.ckeys a ?_
        rcases List.mem_append.mp ha with h | h
        · exact List.mem_append.mpr (Or.inl h)
        · exact List.mem_append.mpr (Or.inr (List.mem_cons_of_mem _ h))
      · rw [List.chain'_append]
        refine ⟨?_, ?_, ?_⟩
        · refine chain'_imp_tail c1 hch1 ?_
          intro x hx y hy hR
          refine linkCond_step cf hR ?_ ?_ ?_
          · rintro rfl
            exact hk1 hx
          · rintro rfl
            exact hk1 ((List.tail_sublist c1).subset hy)
          · rintro rfl
            exact hb1 ((List.tail_sublist c1).subset hy)
        · refine chain'_imp_tail (b :: c2') hch2' ?_
          intro x hx y hy hR
          have hyc2 : y ∈ c2' := hy
          refine linkCond_step cf hR ?_ ?_ ?_
          · rintro rfl
            exact hk2 hx
          · rintro rfl
            exact hk2 (List.mem_cons_of_mem _ hyc2)
          · rintro rfl
            exact hbnc2 hyc2
        · intro x hxl y hyh
          have hyb : b = y := by simpa using hyh
          subst hyb
          have hLxk : LinkCond g x k := hch12 x hxl k (by simp)
          refine ⟨?_, ?_, ?_⟩
          · intro j hj
            rcases (hsr j x).mp hj with ⟨hjd, _⟩ | ⟨hjk, _, hj'⟩
            · exact hjd
            · exact absurd (hLxk.1 j hj') hjk
          · exact (hsr b x).mpr (Or.inl ⟨rfl, hLxk.2.1⟩)
          · intro r hr
            rcases (hsr b r).mp hr with ⟨_, hk⟩ | ⟨_, hbd, _⟩
            · exact hLxk.2.2 r hk
            · exact absurd rfl hbd
      · intro a ha hsome
        obtain ⟨hak, hsome'⟩ := (hsk a).mp hsome
        have hac := inv.ksc a ha hsome'
        rcases List.mem_append.mp hac with h | h
        · exact List.mem_append.mpr (Or.inl h)
        · rcases List.mem_cons.mp h with h' | h'
          · exact absurd h' hak
          · exact List.mem_append.mpr (Or.inr h')
  · have hdnotail : ∀ y ∈ c.tail, y ≠ d := by
      intro y hy hyd
      subst hyd
      obtain ⟨p, hp, hpL⟩ := chain'_pred_of_mem_tail c inv.cchain _ hy
      have hkp : k = p := hpL.2.2 k cf.hdref
      refine hkc ?_
      rw [hkp]
      exact hp
    refine ⟨c, hnd', inv.clastq, inv.cnodup, inv.csub, ?_, ?_, ?_, htm'⟩
    · intro a ha
      exact (hsk a).mpr ⟨fun hh => hkc (hh ▸ ha), inv.ckeys a ha⟩
    · refine chain'_imp_tail c inv.cchain ?_
      intro x hx y hy hR
      refine linkCond_step cf hR (fun hh => hkc (hh ▸ hx))
        (fun hh => hkc (hh ▸ (List.tail_sublist c).subset hy))
        (hdnotail y hy)
    · intro a ha hsome
      obtain ⟨_, hsome'⟩ := (hsk a).mp hsome
      exact inv.ksc a ha hsome'

theorem fuseAux_inv (keep ks : List K) (kt : K) :
    ∀ (f : Nat) (g : Graph F V K) (c : List K), FuseInv g keep ks kt c →
      (∃ c', FuseInv (fuseAux keep f g) keep ks kt c') ∧
      (∀ v, EvalsTo ef g kt v ↔ EvalsTo ef (fuseAux keep f g) kt v) := by
  intro f
  induction f with
  | zero =>
    intro g c inv
    rw [fuseAux]
    exact ⟨⟨c, inv⟩, fun _ => Iff.rfl⟩
  | succ f ih =>
    intro g c inv
    rw [fuseAux]
    cases hc : findCandidateFuse g keep with
    | none => exact ⟨⟨c, inv⟩, fun _ => Iff.rfl⟩
    | some cand =>
      obtain ⟨k, tk, d⟩ := cand
      have cf := candFacts_of_find inv.nodup hc
      have hktk : kt ≠ k := fun hh => kt_ne_candidate cf inv.tmax hh.symm
      obtain ⟨c', inv'⟩ := fuseInv_step inv cf
      obtain ⟨hinv2, hiff2⟩ := ih (substDropStep g k tk d) c' inv'
      refine ⟨hinv2, fun v => ?_⟩
      exact (substStep_evalsTo ef g k tk d cf.hkd cf.htk cf.honlyP kt v
        hktk).trans (hiff2 v)

theorem fuseAux_no_candidate (keep : List K) :
    ∀ (f : Nat) (g : Graph F V K), g.length ≤ f →
      findCandidateFuse (fuseAux keep f g) keep = none := by
  intro f
  induction f with
  | zero =>
    intro g hg
    have hgnil : g = [] := List.length_eq_zero.mp (Nat.le_zero.mp hg)
    subst hgnil
    rw [fuseAux]
    rfl
  | succ f ih =>
    intro g hg
    rw [fuseAux]
    cases hc : findCandidateFuse g keep with
    | none => exact hc
    | some cand =>
      obtain ⟨k, tk, d⟩ := cand
      obtain ⟨hmem, _, _, _, _⟩ := findCandidateFuse_spec hc
      have hk : k ∈ keysOf g := by
        unfold keysOf
        exact List.mem_map_of_mem Prod.fst hmem
      have hlen := @length_substDropStep F V K _ g k tk d hk
      exact ih _ (by omega)

theorem findCandidateFuse_isSome_of {g : Graph F V K} {keep : List K}
    {a b : K} {ta tb : TaskSpec F V K} (hmem : (a, ta) ∈ g) (hak : a ∉ keep)
    (hdep : dependentsOf g a = [b]) (hab : a ≠ b)
    (hlb : lookupG g b = some tb) (hall : ∀ r ∈ refsOf tb, r = a) :
    findCandidateFuse g keep ≠ none := by
  intro hnone
  unfold findCandidateFuse at hnone
  have hfa := List.findSome?_eq_none_iff.mp hnone (a, ta) hmem
  have hfa2 : (if a ∉ keep then
      (match dependentsOf g a with
        | [d] =>
          if a ≠ d then
            (match lookupG g d with
              | some td =>
                if (refsOf td).all (fun r => decide (r = a)) then
                  some (a, ta, d)
                else none
              | none => none)
          else none
        | _ => none)
      else none) = none := hfa
  rw [if_pos hak, hdep] at hfa2
  have hfa3 : (if a ≠ b then
      (match lookupG g b with
        | some td =>
          if (refsOf td).all (fun r => decide (r = a)) then
            some (a, ta, b)
          else none
        | none => none)
      else none) = none := hfa2
  rw [if_pos hab, hlb] at hfa3
  have hfa4 : (if (refsOf tb).all (fun r => decide (r = a)) then
      some (a, ta, b) else none) = none := hfa3
  rw [if_pos (List.all_eq_true.mpr
    (fun r hr => decide_eq_true (hall r hr)))] at hfa4
  simp at hfa4

theorem no_candidate_no_link {g : Graph F V K} {keep : List K}
    (hnd : NodupKeys g) (hnone : findCandidateFuse g keep = none)
    {a b : K} (ha : (lookupG g a).isSome = true) (hak : a ∉ keep)
    (hab : a ≠ b) (hL : LinkCond g a b) : False := by
  obtain ⟨h1, ⟨tb, hlb, hab'⟩, h3⟩ := hL
  have hall : ∀ r ∈ refsOf tb, r = a := fun r hr => h3 r ⟨tb, hlb, hr⟩
  have hgnd : g.Nodup := List.Nodup.of_map Prod.fst hnd
  have hdep : dependentsOf g a = [b] := by
    unfold dependentsOf
    have hfil : g.filter (fun p => decide (a ∈ refsOf p.2)) = [(b, tb)] := by
      apply filter_eq_singleton hgnd (lookupG_mem hlb)
      · simpa using hab'
      · rintro ⟨j, t⟩ hp hpt
        have hjb : j = b := h1 j ⟨t, mem_lookupG hnd hp, by simpa using hpt⟩
        exact nodup_keys_entry_eq hnd hp (lookupG_mem hlb) hjb
    rw [hfil]
    rfl
  obtain ⟨ta, hla⟩ := Option.isSome_iff_exists.mp ha
  exact findCandidateFuse_isSome_of (lookupG_mem hla) hak hdep hab hlb
    hall hnone

end ChainTheorems

section CSEHelpers

variable {K W : Type} [DecidableEq K] [DecidableEq W]

theorem optimizeGo_keys (inj : K → W) :
    ∀ (rest acc : List (K × W)),
      (optimizeGo inj acc rest).map Prod.fst =
        acc.map Prod.fst ++ rest.map Prod.fst := by
  intro rest
  induction rest with
  | nil => intro acc; simp [optimizeGo]
  | cons p rest ih =>
    intro acc
    obtain ⟨k, v⟩ := p
    rw [optimizeGo]
    by_cases hv : v ∈ valuesOfA acc
    · rw [if_pos hv]
      cases hlast : lastKeyWithVal acc v with
      | some k0 => rw [ih]; simp
      | none => rw [ih]; simp
    · rw [if_neg hv]
      rw [ih]
      simp

end CSEHelpers

section CSEMain

variable {K W : Type} [DecidableEq K] [DecidableEq W]

theorem cseTf_fst (inj : K → W) (dsk : List (K × W)) (p : K × W) :
    (cseTf inj dsk p).1 = p.1 := by
  unfold cseTf
  cases h : firstKeyWithVal dsk p.2 with
  | none => rfl
  | some k0 =>
    show (if k0 = p.1 then p else (p.1, inj k0)).1 = p.1
    by_cases hk : k0 = p.1
    · rw [if_pos hk]
    · rw [if_neg hk]

theorem firstKeyWithVal_mem_keys {dsk : List (K × W)} {v : W} {k0 : K}
    (h : firstKeyWithVal dsk v = some k0) : k0 ∈ dsk.map Prod.fst := by
  unfold firstKeyWithVal at h
  cases hf : dsk.find? (fun p => decide (p.2 = v)) with
  | none => rw [hf] at h; simp at h
  | some q =>
    rw [hf] at h
    simp only [Option.map_some', Option.some.injEq] at h
    exact h ▸ List.mem_map_of_mem Prod.fst (List.mem_of_find?_eq_some hf)

theorem firstKeyWithVal_append_nomatch {done rest : List (K × W)} {k : K}
    {v : W} (hA : ∀ q ∈ done, q.2 ≠ v) :
    firstKeyWithVal (done ++ (k, v) :: rest) v = some k := by
  unfold firstKeyWithVal
  rw [List.find?_append]
  have h1 : done.find? (fun p => decide (p.2 = v)) = none := by
    rw [List.find?_eq_none]
    intro q hq
    simp only [decide_eq_true_eq]
    exact hA q hq
  rw [h1, Option.none_or, List.find?_cons_of_pos _ (by simp)]
  rfl

theorem firstKeyWithVal_append_match {done rest : List (K × W)} {v : W}
    {q0 : K × W} (hfind : done.find? (fun p => decide (p.2 = v)) = some q0) :
    firstKeyWithVal (done ++ rest) v = some q0.1 := by
  unfold firstKeyWithVal
  rw [List.find?_append, hfind]
  rfl

theorem cseTf_keeps_first {inj : K → W} {dsk done rest : List (K × W)}
    {v : W} {q0 : K × W} (hsplit : dsk = done ++ rest)
    (hfind : done.find? (fun p => decide (p.2 = v)) = some q0) :
    cseTf inj dsk q0 = q0 := by
  have hq0v : q0.2 = v := by simpa using List.find?_some hfind
  unfold cseTf
  rw [hq0v, hsplit, firstKeyWithVal_append_match hfind]
  show (if q0.1 = q0.1 then q0 else (q0.1, inj q0.1)) = q0
  rw [if_pos rfl]

theorem cse_loop_body {inj : K → W} {dsk : List (K × W)}
    (hnd : (dsk.map Prod.fst).Nodup) (hnk : NoKeyBody inj dsk)
    {done rest : List (K × W)} {k : K} {v : W}
    (hsplit : dsk = done ++ (k, v) :: rest) :
    (v ∈ valuesOfA (done.map (cseTf inj dsk)) ↔ ∃ q ∈ done, q.2 = v) ∧
    (∀ q0, done.find? (fun p => decide (p.2 = v)) = some q0 →
      lastKeyWithVal (done.map (cseTf inj dsk)) v = some q0.1 ∧
      cseTf inj dsk (k, v) = (k, inj q0.1)) ∧
    ((∀ q ∈ done, q.2 ≠ v) → cseTf inj dsk (k, v) = (k, v)) := by
  have hkv_mem : (k, v) ∈ dsk := by
    rw [hsplit]
    exact List.mem_append_right _ (List.mem_cons_self _ _)
  have hv_not_inj : ∀ k' ∈ dsk.map Prod.fst, v ≠ inj k' := by
    intro k' hk' he
    exact hnk (k, v) hkv_mem k' hk' he
  have hdone_sub : ∀ q ∈ done, q ∈ dsk := by
    intro q hq
    rw [hsplit]
    exact List.mem_append_left _ hq
  have hdone_nd : (done.map Prod.fst).Nodup := by
    rw [hsplit, List.map_append] at hnd
    exact hnd.sublist (List.sublist_append_left _ _)
  have hk_not_done : k ∉ done.map Prod.fst := by
    rw [hsplit, List.map_append] at hnd
    intro hmem
    rcases List.disjoint_of_nodup_append hnd hmem (by simp)
  -- the value of a transformed entry is either the original body or an
  -- injected key, and injected keys never equal v
  have htf_val : ∀ q ∈ done, (cseTf inj dsk q).2 = v → q.2 = v ∧ cseTf inj dsk q = q := by
    intro q hq hval
    unfold cseTf at hval ⊢
    cases hf : firstKeyWithVal dsk q.2 with
    | none =>
      rw [hf] at hval
      exact ⟨hval, rfl⟩
    | some k0 =>
      rw [hf] at hval
      have hval' : (if k0 = q.1 then q else (q.1, inj k0)).2 = v := hval
      by_cases hk0 : k0 = q.1
      · rw [if_pos hk0] at hval'
        refine ⟨hval', ?_⟩
        show (if k0 = q.1 then q else (q.1, inj k0)) = q
        rw [if_pos hk0]
      · rw [if_neg hk0] at hval'
        exact absurd hval'.symm (hv_not_inj k0 (firstKeyWithVal_mem_keys hf))
  constructor
  · constructor
    · intro hmem
      obtain ⟨q', hq', hval⟩ := List.mem_map.mp
        (show v ∈ (done.map (cseTf inj dsk)).map Prod.snd from hmem)
      obtain ⟨q, hq, rfl⟩ := List.mem_map.mp hq'
      exact ⟨q, hq, (htf_val q hq hval).1⟩
    · rintro ⟨q, hq, hval⟩
      cases hfind : done.find? (fun p => decide (p.2 = v)) with
      | none =>
        rw [List.find?_eq_none] at hfind
        exact absurd hval (by simpa using hfind q hq)
      | some q0 =>
        have hq0_mem : q0 ∈ done := List.mem_of_find?_eq_some hfind
        have hkeep : cseTf inj dsk q0 = q0 :=
          cseTf_keeps_first hsplit hfind
        have hq0v : q0.2 = v := by simpa using List.find?_some hfind
        simp only [valuesOfA, List.map_map]
        refine List.mem_map.mpr ⟨q0, hq0_mem, ?_⟩
        simp only [Function.comp_apply, hkeep, hq0v]
  constructor
  · intro q0 hfind
    have hq0_mem : q0 ∈ done := List.mem_of_find?_eq_some hfind
    have hq0v : q0.2 = v := by simpa using List.find?_some hfind
    have hkeep : cseTf inj dsk q0 = q0 := cseTf_keeps_first hsplit hfind
    have hfk : firstKeyWithVal dsk v = some q0.1 := by
      rw [hsplit]
      exact firstKeyWithVal_append_match hfind
    constructor
    · unfold lastKeyWithVal
      have hnd' : (done.map (cseTf inj dsk)).Nodup := by
        refine List.Nodup.of_map Prod.fst ?_
        have : (done.map (cseTf inj dsk)).map Prod.fst = done.map Prod.fst := by
          rw [List.map_map]
          exact List.map_congr_left (fun q _ => cseTf_fst inj dsk q)
        rw [this]
        exact hdone_nd
      have hsingle : (done.map (cseTf inj dsk)).filter
          (fun p => decide (p.2 = v)) = [q0] := by
        refine filter_eq_singleton hnd' ?_ ?_ ?_
        · exact hkeep ▸ List.mem_map_of_mem _ hq0_mem
        · simp [hq0v]
        · intro b hb hpb
          obtain ⟨q, hq, rfl⟩ := List.mem_map.mp hb
          simp only [decide_eq_true_eq] at hpb
          obtain ⟨hqv, hqkeep⟩ := htf_val q hq hpb
          rw [hqkeep]
          -- q is kept, so its key must be the first carrier of v
          have hfq : firstKeyWithVal dsk q.2 = some q0.1 := by
            rw [hqv]
            exact hfk
          have hkeys : q.1 = q0.1 := by
            by_contra hne
            have hred : cseTf inj dsk q = (q.1, inj q0.1) := by
              unfold cseTf
              rw [hfq]
              show (if q0.1 = q.1 then q else (q.1, inj q0.1)) = (q.1, inj q0.1)
              rw [if_neg (fun h => hne h.symm)]
            rw [hqkeep] at hred
            have h2 := congrArg Prod.snd hred
            simp only at h2
            exact hv_not_inj q0.1 (firstKeyWithVal_mem_keys hfq) (hqv ▸ h2)
          exact nodup_keys_entry_eq hdone_nd hq hq0_mem hkeys
      rw [hsingle]
      simp
    · unfold cseTf
      simp only [hfk]
      have : q0.1 ≠ k := fun he =>
        hk_not_done (he ▸ List.mem_map_of_mem Prod.fst hq0_mem)
      rw [if_neg this]
  · intro hA
    unfold cseTf
    have hfv : firstKeyWithVal dsk v = some k := by
      rw [hsplit]
      exact firstKeyWithVal_append_nomatch hA
    simp [hfv]

theorem optimizeGo_cse {inj : K → W} {dsk : List (K × W)}
    (hnd : (dsk.map Prod.fst).Nodup) (hnk : NoKeyBody inj dsk) :
    ∀ (rest done : List (K × W)), dsk = done ++ rest →
      optimizeGo inj (done.map (cseTf inj dsk)) rest =
        dsk.map (cseTf inj dsk) := by
  intro rest
  induction rest with
  | nil =>
    intro done hsplit
    rw [optimizeGo, hsplit]
    simp
  | cons p rest ih =>
    intro done hsplit
    obtain ⟨k, v⟩ := p
    obtain ⟨hmem_iff, hcaseB, hcaseA⟩ := cse_loop_body hnd hnk hsplit
    rw [optimizeGo]
    by_cases hv : v ∈ valuesOfA (done.map (cseTf inj dsk))
    · rw [if_pos hv]
      obtain ⟨q, hq, hqv⟩ := hmem_iff.mp hv
      cases hfind : done.find? (fun p => decide (p.2 = v)) with
      | none =>
        rw [List.find?_eq_none] at hfind
        exact absurd hqv (by simpa using hfind q hq)
      | some q0 =>
        obtain ⟨hlast, htf⟩ := hcaseB q0 hfind
        rw [hlast]
        show optimizeGo inj (done.map (cseTf inj dsk) ++ [(k, inj q0.1)]) rest =
          dsk.map (cseTf inj dsk)
        have hstep : done.map (cseTf inj dsk) ++ [(k, inj q0.1)] =
            (done ++ [(k, v)]).map (cseTf inj dsk) := by
          rw [List.map_append, List.map_singleton, htf]
        rw [hstep]
        exact ih (done ++ [(k, v)]) (by rw [hsplit]; simp)
    · rw [if_neg hv]
      have hA : ∀ q ∈ done, q.2 ≠ v := by
        intro q hq he
        exact hv (hmem_iff.mpr ⟨q, hq, he⟩)
      have htf := hcaseA hA
      have hstep : done.map (cseTf inj dsk) ++ [(k, v)] =
          (done ++ [(k, v)]).map (cseTf inj dsk) := by
        rw [List.map_append, List.map_singleton, htf]
      rw [hstep]
      exact ih (done ++ [(k, v)]) (by rw [hsplit]; simp)

theorem optimizeAltGo_cse {inj : K → W} {dsk : List (K × W)}
    (hnd : (dsk.map Prod.fst).Nodup) :
    ∀ (rest done : List (K × W)), dsk = done ++ rest →
      optimizeAltGo inj dsk (done.map (cseTf inj dsk)) rest =
        dsk.map (cseTf inj dsk) := by
  intro rest
  induction rest with
  | nil =>
    intro done hsplit
    rw [optimizeAltGo, hsplit]
    simp
  | cons p rest ih =>
    intro done hsplit
    obtain ⟨k, v⟩ := p
    have hkv_mem : (k, v) ∈ dsk := by
      rw [hsplit]
      exact List.mem_append_right _ (List.mem_cons_self _ _)
    have hdone_nd : (done.map Prod.fst).Nodup := by
      rw [hsplit, List.map_append] at hnd
      exact hnd.sublist (List.sublist_append_left _ _)
    have hk_not_done : k ∉ done.map Prod.fst := by
      rw [hsplit, List.map_append] at hnd
      intro hmem
      rcases List.disjoint_of_nodup_append hnd hmem (by simp)
    have hkeys_acc : (done.map (cseTf inj dsk)).map Prod.fst =
        done.map Prod.fst := by
      rw [List.map_map]
      exact List.map_congr_left (fun q _ => cseTf_fst inj dsk q)
    rw [optimizeAltGo]
    cases hfind : done.find? (fun p => decide (p.2 = v)) with
    | none =>
      have hA : ∀ q ∈ done, q.2 ≠ v := by
        rw [List.find?_eq_none] at hfind
        intro q hq
        simpa using hfind q hq
      have hfk : firstKeyWithVal dsk v = some k := by
        rw [hsplit]
        exact firstKeyWithVal_append_nomatch hA
      rw [hfk]
      have hknot : k ∉ (done.map (cseTf inj dsk)).map Prod.fst := by
        rw [hkeys_acc]
        exact hk_not_done
      show (if k ∈ (done.map (cseTf inj dsk)).map Prod.fst then
          optimizeAltGo inj dsk (done.map (cseTf inj dsk) ++ [(k, inj k)]) rest
        else optimizeAltGo inj dsk (done.map (cseTf inj dsk) ++ [(k, v)]) rest) =
          dsk.map (cseTf inj dsk)
      rw [if_neg hknot]
      have htf : cseTf inj dsk (k, v) = (k, v) := by
        unfold cseTf
        simp [hfk]
      have hstep : done.map (cseTf inj dsk) ++ [(k, v)] =
          (done ++ [(k, v)]).map (cseTf inj dsk) := by
        rw [List.map_append, List.map_singleton, htf]
      rw [hstep]
      exact ih (done ++ [(k, v)]) (by rw [hsplit]; simp)
    | some q0 =>
      have hq0_mem : q0 ∈ done := List.mem_of_find?_eq_some hfind
      have hfk : firstKeyWithVal dsk v = some q0.1 := by
        rw [hsplit]
        exact firstKeyWithVal_append_match hfind
      rw [hfk]
      have hq0in : q0.1 ∈ (done.map (cseTf inj dsk)).map Prod.fst := by
        rw [hkeys_acc]
        exact List.mem_map_of_mem Prod.fst hq0_mem
      show (if q0.1 ∈ (done.map (cseTf inj dsk)).map Prod.fst then
          optimizeAltGo inj dsk (done.map (cseTf inj dsk) ++ [(k, inj q0.1)]) rest
        else optimizeAltGo inj dsk (done.map (cseTf inj dsk) ++ [(k, v)]) rest) =
          dsk.map (cseTf inj dsk)
      rw [if_pos hq0in]
      have htf : cseTf inj dsk (k, v) = (k, inj q0.1) := by
        unfold cseTf
        rw [show firstKeyWithVal dsk (k, v).2 = some q0.1 from hfk]
        show (if q0.1 = k then (k, v) else (k, inj q0.1)) = (k, inj q0.1)
        have : q0.1 ≠ k := fun he =>
          hk_not_done (he ▸ List.mem_map_of_mem Prod.fst hq0_mem)
        rw [if_neg this]
      have hstep : done.map (cseTf inj dsk) ++ [(k, inj q0.1)] =
          (done ++ [(k, v)]).map (cseTf inj dsk) := by
        rw [List.map_append, List.map_singleton, htf]
      rw [hstep]
      exact ih (done ++ [(k, v)]) (by rw [hsplit]; simp)

end CSEMain

section Claims

/-- C1: for every task graph with distinct keys and every output-key
set, culling preserves the evaluation result of each requested output
key, and so does every further prefix of the pipeline composed in
optimize_and_get: cull, then inline, then inline_functions, then
fuse. -/
theorem c1_result_preservation {F V K : Type} [DecidableEq F] [DecidableEq K]
    (ef : F → List V → Option V) (fast : List F)
    (g : Graph F V K) (keys : List K) (hnd : NodupKeys g)
    (k : K) (hk : k ∈ keys) (v : V) :
    (EvalsTo ef g k v ↔ EvalsTo ef (cull g keys) k v) ∧
    (EvalsTo ef g k v ↔ EvalsTo ef (inline (cull g keys) keys) k v) ∧
    (EvalsTo ef g k v ↔
      EvalsTo ef (inline_functions (inline (cull g keys) keys) keys fast) k v) ∧
    (EvalsTo ef g k v ↔ EvalsTo ef (pipeline fast g keys) k v) := by
  have h1 := cull_evalsTo ef g keys k v (outs_subset_reachList g keys hk)
  have nd1 : NodupKeys (cull g keys) := nodup_cull hnd
  have h2 := inline_evalsTo ef (cull g keys) keys k v nd1 hk
  have nd2 : NodupKeys (inline (cull g keys) keys) := nodup_inline nd1
  have h3 : EvalsTo ef (inline (cull g keys) keys) k v ↔
      EvalsTo ef (inline_functions (inline (cull g keys) keys) keys fast) k v :=
    inline_functions_evalsTo ef nd2 hk v
  have nd3 : NodupKeys (inline_functions (inline (cull g keys) keys) keys
      fast) := nodup_inline_functions nd2
  have h4 := fuse_evalsTo ef nd3 hk v
  exact ⟨h1, h1.trans h2, (h1.trans h2).trans h3,
    ((h1.trans h2).trans h3).trans h4⟩

/-- Witness for C1: the word-count graph with outputs print1, print2;
print1 evaluates to its formatted string in the original graph and,
by the theorem, in the fully optimized graph. -/
theorem c1_result_preservation_witness :
    NodupKeys wcG ∧ "print1" ∈ wcOuts ∧
      EvalsTo evalFn1 wcG "print1" wcP1 ∧
      EvalsTo evalFn1 (pipeline wcFast wcG wcOuts) "print1" wcP1 := by
  have hev : EvalsTo evalFn1 wcG "print1" wcP1 := ⟨20, by decide⟩
  exact ⟨by decide, by decide, hev,
    (c1_result_preservation evalFn1 wcFast wcG wcOuts (by decide) "print1"
      (by decide) wcP1).2.2.2.mp hev⟩

/-- C2: cull retains exactly the keys reachable from the outputs via
the transitive dependency relation, never drops a listed output key
present in the graph, and on the word-count graph with outputs print1
and print2 drops exactly the val3, count3, format3, print3 branch;
executing the culled graph returns two results, prints twice, and
never computes print3. -/
theorem c2_cull_reachable {F V K : Type} [DecidableEq K] (g : Graph F V K)
    (outs : List K) (k : K) :
    (k ∈ keysOf (cull g outs) ↔ k ∈ keysOf g ∧ Reachable g outs k) ∧
    (k ∈ outs → k ∈ keysOf g → k ∈ keysOf (cull g outs)) ∧
    keysOf (cull wcG wcOuts) =
      ["words", "nwords", "val1", "val2", "count1", "count2",
       "format1", "format2", "print1", "print2"] ∧
    "print3" ∉ keysOf (cull wcG wcOuts) ∧
    (execute evalFn1 (cull wcG wcOuts) wcOuts 30).map
        (fun r => (r.1.length, r.2.trace.count FN1.printRet,
          decide ("print3" ∈ r.2.cache.map Prod.fst))) = some (2, 2, false) := by
  refine ⟨cull_keys_iff g outs k, ?_, by decide, by decide, by decide⟩
  intro hk hkeys
  exact (cull_keys_iff g outs k).mpr ⟨hkeys, Reachable.base hk⟩

/-- Witness for C2: output print1 is listed and present, so cull keeps
it. -/
theorem c2_cull_reachable_witness :
    ("print1" ∈ wcOuts ∧ "print1" ∈ keysOf wcG) ∧
      "print1" ∈ keysOf (cull wcG wcOuts) :=
  ⟨⟨by decide, by decide⟩,
    (c2_cull_reachable wcG wcOuts "print1").2.1 (by decide) (by decide)⟩

/-- C3: after inline with the default key set, a literal-valued key
that is not an output is gone from the graph, no remaining task
references it (its value is embedded instead), and concretely the
culled-and-inlined word-count graph has lost words, val1, val2, with
count1 holding the two strings as direct literals. -/
theorem c3_inline_eliminates {F V K : Type} [DecidableEq K]
    (g : Graph F V K) (outs : List K) (k : K) (v : V)
    (hnd : NodupKeys g) (hlit : lookupG g k = some (.lit v))
    (hout : k ∉ outs) :
    k ∉ keysOf (inline g outs) ∧
    (∀ p ∈ inline g outs, k ∉ refsOf p.2) ∧
    keysOf wcG2 =
      ["nwords", "count1", "count2", "format1", "format2",
       "print1", "print2"] ∧
    lookupG wcG2 "count1" = some (.app .countOcc
      [.lit (.vstr "apple orange apple pear orange pear pear"),
       .lit (.vstr "orange")]) := by
  have hσ : lookupA (litBindings g) k = some v :=
    (lookupA_litBindings hnd).mpr hlit
  have hσk : k ∈ (litBindings g).map Prod.fst := by
    by_contra hcon
    rw [← lookupA_eq_none] at hcon
    simp [hσ] at hcon
  refine ⟨?_, ?_, by decide, by decide⟩
  · rw [keysOf_inline, List.mem_filter]
    rintro ⟨-, hcond⟩
    simp only [decide_eq_true_eq] at hcond
    rcases hcond with hcond | hcond
    · exact hcond hσk
    · exact hout hcond
  · intro p hp
    unfold inline at hp
    obtain ⟨q, hq, rfl⟩ := List.mem_map.mp hp
    intro hr
    obtain ⟨-, hnone⟩ := refs_substLits q.2 k hr
    simp [hσ] at hnone

/-- Witness for C3: val1 is literal-valued, not an output, and
disappears when the word-count graph is inlined. -/
theorem c3_inline_eliminates_witness :
    (NodupKeys wcG ∧
      lookupG wcG "val1" = some (.lit (.vstr "orange")) ∧
      "val1" ∉ wcOuts) ∧
    "val1" ∉ keysOf (inline wcG wcOuts) :=
  ⟨⟨by decide, by decide, by decide⟩,
    (c3_inline_eliminates wcG wcOuts "val1" (.vstr "orange") (by decide)
      (by decide) (by decide)).1⟩

/-- C4: every candidate inline_functions selects has exactly one
dependent, any key with two or more dependents survives the rewrite
step, and on the culled-and-inlined word-count graph with
fast_functions len and split, nwords (fan-out 2) is not inlined: the
pass leaves the graph unchanged. -/
theorem c4_fanout_exclusion {F V K : Type} [DecidableEq F] [DecidableEq K]
    (g : Graph F V K) (outs : List K) (fast : List F) (k d : K)
    (tk : TaskSpec F V K)
    (hc : findCandidateIF g outs fast = some (k, tk, d)) :
    dependentsOf g k = [d] ∧
    (∀ j ∈ keysOf g, 2 ≤ (dependentsOf g j).length →
      j ∈ keysOf (substDropStep g k tk d)) ∧
    (dependentsOf wcG2 "nwords").length = 2 ∧
    inline_functions wcG2 wcOuts wcFast = wcG2 ∧
    "nwords" ∈ keysOf (inline_functions wcG2 wcOuts wcFast) := by
  obtain ⟨hmem, hfast, houts, hdep, hkd⟩ := findCandidateIF_spec hc
  refine ⟨hdep, ?_, by decide, by decide, by decide⟩
  intro j hj h2
  rw [keysOf_substDropStep, List.mem_filter]
  refine ⟨hj, ?_⟩
  simp only [decide_eq_true_eq]
  intro hjk
  subst hjk
  rw [hdep] at h2
  simp at h2

/-- Witness for C4: a small graph where the allow-listed single-use
task a is a candidate into its sole dependent b. -/
theorem c4_fanout_exclusion_witness :
    findCandidateIF gIFw ["b"] [FN1.len] =
        some ("a", .app .len [.lit (.vstr "s")], "b") ∧
      dependentsOf gIFw "a" = ["b"] :=
  ⟨by decide,
    (c4_fanout_exclusion gIFw ["b"] [FN1.len] "a" "b"
      (.app .len [.lit (.vstr "s")]) (by decide)).1⟩

/-- C5: on a graph with distinct keys, for every maximal linear chain
(each link's source has the link's target as its sole dependent and
the target depends on nothing else, the terminal key is maximal: kept,
without dependents, with several dependents, or with a sole dependent
that has another dependency) with no kept key interior to it, fuse
keeps the chain's terminal key, drops every other chain key, and
evaluation of the terminal key yields exactly the values it yielded
before fusion. -/
theorem c5_fusion_contraction {F V K : Type} [DecidableEq F] [DecidableEq K]
    (g : Graph F V K) (keep : List K) (ef : F → List V → Option V)
    (ks : List K) (kt : K) (hnd : NodupKeys g)
    (hlast : ks.getLast? = some kt) (hksnd : ks.Nodup)
    (hmem : ∀ a ∈ ks, a ∈ keysOf g)
    (hchain : List.Chain' (LinkCondB g) ks)
    (hkeep : ∀ a ∈ ks, a ≠ kt → a ∉ keep)
    (htm : TailMaxB g keep kt) :
    kt ∈ keysOf (fuse g keep) ∧
    (∀ a ∈ ks, a ≠ kt → a ∉ keysOf (fuse g keep)) ∧
    (∀ v, EvalsTo ef g kt v ↔ EvalsTo ef (fuse g keep) kt v) := by
  have inv : FuseInv g keep ks kt ks :=
    ⟨hnd, hlast, hksnd, fun a ha => ha,
     fun a ha => by simpa using lookupG_isSome.mpr (hmem a ha),
     List.Chain'.imp (fun a b h => (linkCondB_iff hnd).mp h) hchain,
     fun a ha _ => ha, (tailMaxB_iff hnd).mp htm⟩
  obtain ⟨⟨c', inv'⟩, hiff⟩ := fuseAux_inv ef keep ks kt g.length g ks inv
  have hnone := fuseAux_no_candidate keep g.length g (le_refl _)
  have hsingle : ∀ a ∈ c', a = kt := by
    intro a ha
    cases c' with
    | nil => simp at ha
    | cons a0 c'' =>
      cases c'' with
      | nil =>
        have h0 : a0 = kt := by
          have := inv'.clastq
          simp at this
          exact this
        have ha0 := List.mem_singleton.mp ha
        rw [ha0]
        exact h0
      | cons b0 c''' =>
        exfalso
        have hch := inv'.cchain
        rw [List.chain'_cons] at hch
        have hL : LinkCond (fuseAux keep g.length g) a0 b0 := hch.1
        have hlast2 := inv'.clastq
        rw [List.getLast?_cons_cons] at hlast2
        have hktmem : kt ∈ b0 :: c''' := mem_of_getLast?_eq hlast2
        have hnd0 := inv'.cnodup
        rw [List.nodup_cons] at hnd0
        have ha0kt : a0 ≠ kt := by
          intro hh
          refine hnd0.1 ?_
          rw [hh]
          exact hktmem
        have ha0b0 : a0 ≠ b0 := by
          intro hh
          refine hnd0.1 ?_
          rw [hh]
          exact List.mem_cons_self _ _
        have ha0keep : a0 ∉ keep :=
          hkeep a0 (inv'.csub a0 (List.mem_cons_self _ _)) ha0kt
        have ha0some := inv'.ckeys a0 (List.mem_cons_self _ _)
        exact no_candidate_no_link inv'.nodup hnone ha0some ha0keep ha0b0 hL
  refine ⟨?_, ?_, fun v => hiff v⟩
  · have hktc : kt ∈ c' := mem_of_getLast?_eq inv'.clastq
    have hsome := inv'.ckeys kt hktc
    exact lookupG_isSome.mp (by simpa using hsome)
  · intro a ha hakt hmemf
    have hsome : (lookupG (fuseAux keep g.length g) a).isSome = true := by
      simpa using lookupG_isSome.mpr hmemf
    exact hakt (hsingle a (inv'.ksc a ha hsome))

/-- Witness for C5: fusing the three-task chain a, b, c with c kept
leaves exactly the terminal key c, drops a and b, and the fused graph
still evaluates c to the formatted triple of the length of the base
string. -/
theorem c5_fusion_contraction_witness :
    "c" ∈ keysOf (fuse gChain ["c"]) ∧
    "b" ∉ keysOf (fuse gChain ["c"]) ∧
    "a" ∉ keysOf (fuse gChain ["c"]) ∧
    EvalsTo evalFn1 (fuse gChain ["c"]) "c"
      (.vfmt (.vlen (.vstr "s")) (.vlen (.vstr "s")) (.vlen (.vstr "s"))) := by
  have hchain : List.Chain' (LinkCondB gChain) ["a", "b", "c"] :=
    List.chain'_cons.mpr ⟨by decide,
      List.chain'_cons.mpr ⟨by decide, List.chain'_singleton _⟩⟩
  obtain ⟨h1, h2, h3⟩ := c5_fusion_contraction gChain ["c"] evalFn1
    ["a", "b", "c"] "c" (by decide) (by decide) (by decide) (by decide)
    hchain (by decide) (by decide)
  refine ⟨h1, h2 "b" (by decide) (by decide), h2 "a" (by decide) (by decide),
    ?_⟩
  exact (h3 _).mp ⟨10, by decide⟩

/-- C6: a graph with a dangling reference or a reference cycle is
rejected by validate with GraphValidationError; in particular the
two-key cycle graph is rejected, and execution refuses to run it. -/
theorem c6_validation {F V K : Type} [DecidableEq K] (g : Graph F V K)
    (h : HasDangling g ∨ HasCycle g) :
    validate g = ValidateResult.graphValidationError ∧
    validate cyc2 = ValidateResult.graphValidationError ∧
    execute evalFn1 cyc2 ["a"] 10 = none := by
  refine ⟨?_, by decide, by decide⟩
  unfold validate
  rcases h with hd | hc
  · rw [if_pos hd]
  · by_cases hd : HasDangling g
    · rw [if_pos hd]
    · rw [if_neg hd]
      obtain ⟨k, t, hl, hr⟩ := hc
      have hnA : ¬Acyclic g := fun hA =>
        hA (k, t) (lookupG_mem hl) (reachList_complete hr)
      rw [if_pos hnA]

/-- Witness for C6: the two-key cycle a -> b -> a is a semantic cycle
and validate rejects it. -/
theorem c6_validation_witness :
    validate cyc2 = ValidateResult.graphValidationError := by
  have hcyc : HasCycle cyc2 :=
    ⟨"a", .ref "b", by decide,
      Reachable.step (Reachable.base (by decide))
        (show lookupG cyc2 "b" = some (.ref "a") by decide) (by decide)⟩
  exact (c6_validation cyc2 (Or.inr hcyc)).1

/-- C7: on the exercise graph, the notebook optimize rewrites df_b to
reference df_a; executing the original graph for result invokes
create_dataframe twice, the optimized graph invokes it exactly once,
and both runs return the same result value. -/
theorem c7_cse_dedup :
    lookupA (optimize RV.vstr dfG) "df_b" = some (RV.vstr "df_a") ∧
    (execute evalFn2 (parseGraph dfG) ["result"] 50).map
      (fun r => (r.1, r.2.trace.count FN2.create)) = some ([dfResultVal], 2) ∧
    (execute evalFn2 (parseGraph (optimize RV.vstr dfG)) ["result"] 50).map
      (fun r => (r.1, r.2.trace.count FN2.create)) = some ([dfResultVal], 1) :=
  ⟨by decide, by decide, by decide⟩

/-- C9: the common-subexpression pass returns a dict with exactly the
keys of its input, in the same insertion order; duplicates are
redirected, never dropped. -/
theorem c9_keys_preserved {K W : Type} [DecidableEq K] [DecidableEq W]
    (inj : K → W) (dsk : List (K × W)) :
    (optimize inj dsk).map Prod.fst = dsk.map Prod.fst := by
  unfold optimize
  rw [optimizeGo_keys]
  simp

/-- C8 counterexample: in cexA the body of z duplicates the body first
carried by a, yet optimize redirects z to y (the value of the
inverted-accumulator lookup), not to the first carrier a, so the
output differs from the first-carrier specification. -/
theorem c8_counterexample :
    firstKeyWithVal cexA (RV.vstr "x") = some "a" ∧
    (∃ p ∈ cexA, p.1 ≠ "z" ∧ p.2 = RV.vstr "x") ∧
    lookupA (optimize RV.vstr cexA) "z" = some (RV.vstr "y") ∧
    RV.vstr "y" ≠ RV.vstr "a" ∧
    optimize RV.vstr cexA ≠ cse_spec RV.vstr cexA := by decide

/-- C10 counterexample: the two notebook solutions disagree on cexB,
whose z body names the key x: the solution redirects z to y while the
alternate keeps the string x. -/
theorem c10_counterexample :
    optimize RV.vstr cexB ≠ optimize_alt RV.vstr cexB ∧
    optimize RV.vstr cexB =
      [("x", RV.vnat 1), ("y", RV.vstr "x"), ("z", RV.vstr "y")] ∧
    optimize_alt RV.vstr cexB =
      [("x", RV.vnat 1), ("y", RV.vstr "x"), ("z", RV.vstr "x")] := by decide

/-- C8 amended: when the dict has distinct keys and no task body
equals a key name, the notebook optimize matches the first-carrier
specification: every first occurrence of a body is kept and every
later duplicate is redirected to the first key that carried that
body. -/
theorem c8_amended_first_carrier {K W : Type} [DecidableEq K] [DecidableEq W]
    (inj : K → W) (dsk : List (K × W))
    (hnd : (dsk.map Prod.fst).Nodup) (hnk : NoKeyBody inj dsk) :
    optimize inj dsk = cse_spec inj dsk := by
  unfold optimize cse_spec
  have h := optimizeGo_cse hnd hnk dsk [] (by simp)
  simpa using h

/-- Witness for the amended C8: the exercise graph has distinct keys
and no key-named body, so optimize equals the first-carrier
specification there. -/
theorem c8_amended_first_carrier_witness :
    ((dfG.map Prod.fst).Nodup ∧ NoKeyBody RV.vstr dfG) ∧
      optimize RV.vstr dfG = cse_spec RV.vstr dfG :=
  ⟨⟨by decide, by decide⟩,
    c8_amended_first_carrier RV.vstr dfG (by decide) (by decide)⟩

/-- C10 amended: when the dict has distinct keys and no task body
equals a key name, the notebook solution and its alternate produce
identical output dicts. -/
theorem c10_amended_agreement {K W : Type} [DecidableEq K] [DecidableEq W]
    (inj : K → W) (dsk : List (K × W))
    (hnd : (dsk.map Prod.fst).Nodup) (hnk : NoKeyBody inj dsk) :
    optimize inj dsk = optimize_alt inj dsk := by
  unfold optimize optimize_alt
  have h1 := optimizeGo_cse hnd hnk dsk [] (by simp)
  have h2 := @optimizeAltGo_cse K W _ _ inj dsk hnd dsk [] (by simp)
  simp only [List.map_nil] at h1 h2
  rw [h1, h2]

/-- Witness for the amended C10: both solutions agree on the exercise
graph. -/
theorem c10_amended_agreement_witness :
    ((dfG.map Prod.fst).Nodup ∧ NoKeyBody RV.vstr dfG) ∧
      optimize RV.vstr dfG = optimize_alt RV.vstr dfG :=
  ⟨⟨by decide, by decide⟩,
    c10_amended_agreement RV.vstr dfG (by decide) (by decide)⟩

end Claims

end DaskOpt
